import Mathlib

/-!
Shallow embedding of the hashsync tools (`update_sha1s.C`,
`compare_sha1s.C`, `sha1.c`) and proofs about their behaviour.

Strings are modeled as lists of byte values (`List Nat`); the C `long`
and `time_t` integers are modeled as unbounded `Int` (no claim here
exercises 64-bit overflow of those fields); `uint64_t` arithmetic in the
hash engine is reduced modulo `2 ^ 64` where the source wraps.
-/

namespace Hashsync

/-- One manifest entry: class `CFileHash` of `update_sha1s.C`
(a sha1 hash string, the `timespec` modification time and the transient
`touched` flag). -/
structure CFileHash where
  hash : List Nat
  sec : Int
  nsec : Int
  touched : Bool
deriving DecidableEq

/-- `std::unordered_map<std::string, CFileHash>` (`CFileHashMap`) modeled
as an association list; lookups go to the first matching key, so maps
built only through `assocInsert` behave exactly like the C map. -/
abbrev Manifest := List (List Nat × CFileHash)

/-- `unordered_map::find`, as first-match association lookup. -/
def assocLookup {β : Type} : List (List Nat × β) → List Nat → Option β
  | [], _ => none
  | e :: rest, k => if e.1 = k then some e.2 else assocLookup rest k

/-- `map[k] = v`: insert-or-assign keeping the position of an existing key. -/
def assocInsert {β : Type} : List (List Nat × β) → List Nat → β → List (List Nat × β)
  | [], k, v => [(k, v)]
  | e :: rest, k, v => if e.1 = k then (k, v) :: rest else e :: assocInsert rest k v

/-- Fatal decode outcomes of `load_sha1s`.  Every constructor corresponds
to one `exit(EXIT_FAILURE)` site; `oobRead` marks the one input class on
which the C code dereferences one byte past its allocation (undefined
behaviour in the source, kept as a distinct fatal outcome here). -/
inductive DecodeErr where
  | truncated
  | expectedDot
  | expectedNul
  | expectedTerm
  | oobRead
deriving DecidableEq

/-- `get_string` of `update_sha1s.C` / `compare_sha1s.C`: fail when the
cursor already passed the end of the buffer, otherwise read a
NUL-terminated C string starting at `it`.  The caller stores a NUL
sentinel at `buf[size]`, so a field with no NUL before end of input reads
up to the sentinel and leaves the cursor at `size + 1`. -/
def get_string (buf : List Nat) (it : Nat) : Except DecodeErr (List Nat × Nat) :=
  if buf.length ≤ it then .error .truncated
  else
    let s := (buf.drop it).takeWhile (fun b => b ≠ 0)
    .ok (s, it + s.length + 1)

/-- `isspace` on a byte, as consulted by `strtol`. -/
def isSpaceByte (b : Nat) : Bool := b == 32 || (9 ≤ b && b ≤ 13)

/-- ASCII decimal digit test. -/
def isDigitByte (b : Nat) : Bool := 48 ≤ b && b ≤ 57

/-- Digit-consuming core of `strtol`: accumulate decimal digits, stop at
the first non-digit, return the value and the unconsumed remainder. -/
def digitsVal : List Nat → Nat → Nat × List Nat
  | [], acc => (acc, [])
  | b :: bs, acc => if isDigitByte b then digitsVal bs (acc * 10 + (b - 48)) else (acc, b :: bs)

/-- `strtol(p, &end, 10)` on a NUL-free byte string: skip whitespace, an
optional sign, then digits; when no digit follows, the end pointer is
reset to the start of the input.  The returned remainder plays the role
of `end` (an empty remainder means `*end == 0`). -/
def strtol10 (l : List Nat) : Int × List Nat :=
  match l.dropWhile isSpaceByte with
  | 45 :: rest =>
    if (rest.head?.map isDigitByte).getD false then
      let (v, r) := digitsVal rest 0
      (-(v : Int), r)
    else (0, l)
  | 43 :: rest =>
    if (rest.head?.map isDigitByte).getD false then
      let (v, r) := digitsVal rest 0
      ((v : Int), r)
    else (0, l)
  | l1 =>
    if (l1.head?.map isDigitByte).getD false then
      let (v, r) := digitsVal l1 0
      ((v : Int), r)
    else (0, l)

/-- One iteration of the `load_sha1s` loop of `update_sha1s.C`
(lines 130-148): read three NUL-terminated fields, parse the timestamp as
`<integer> . <integer>`, then require one record terminator byte (NUL or
newline; at position `size` the read hits the sentinel, past it the C
code reads out of bounds).  Returns the parsed record and the new cursor. -/
def decodeRecordAt (buf : List Nat) (it : Nat) :
    Except DecodeErr ((List Nat × Int × Int × List Nat) × Nat) :=
  match get_string buf it with
  | .error e => .error e
  | .ok (fname, it1) =>
    match get_string buf it1 with
    | .error e => .error e
    | .ok (time, it2) =>
      match get_string buf it2 with
      | .error e => .error e
      | .ok (hash, it3) =>
        let (sec, r1) := strtol10 time
        match r1 with
        | 46 :: r1t =>
          let (nsec, r2) := strtol10 r1t
          if r2 ≠ [] then .error .expectedNul
          else if buf.length < it3 then .error .oobRead
          else
            let b := if it3 = buf.length then 0 else buf.getD it3 0
            if b ≠ 0 ∧ b ≠ 10 then .error .expectedTerm
            else .ok ((fname, sec, nsec, hash), it3 + 1)
        | _ => .error .expectedDot

/-- A successful `get_string` strictly advances the cursor. -/
theorem get_string_advance {buf : List Nat} {it : Nat} {s it'}
    (h : get_string buf it = .ok (s, it')) : it + 1 ≤ it' := by
  unfold get_string at h
  split at h
  · exact absurd h (by simp)
  · simp only [Except.ok.injEq, Prod.mk.injEq] at h
    omega

/-- Cursor advance of a successful record parse, needed for termination
of the decode loop. -/
theorem decodeRecordAt_advance {buf : List Nat} {it : Nat} {r it'}
    (h : decodeRecordAt buf it = .ok (r, it')) : it + 4 ≤ it' := by
  unfold decodeRecordAt at h
  split at h
  · simp at h
  rename_i fname it1 h1
  split at h
  · simp at h
  rename_i time it2 h2
  split at h
  · simp at h
  rename_i hash it3 h3
  have a1 := get_string_advance h1
  have a2 := get_string_advance h2
  have a3 := get_string_advance h3
  repeat' split at h
  all_goals try exact Except.noConfusion h
  all_goals simp at h
  all_goals try split at h
  all_goals try exact Except.noConfusion h
  all_goals try simp at h
  all_goals omega

/-- The `while ((buf + size) - it > 1)` loop of `load_sha1s`
(`update_sha1s.C` lines 129-149): parse records while at least two bytes
remain before the sentinel, assigning each into the map (later records
overwrite earlier ones with the same path); `touched` starts false. -/
def load_loop (buf : List Nat) (it : Nat) (acc : Manifest) : Except DecodeErr Manifest :=
  if _h : it + 1 < buf.length then
    match _hrec : decodeRecordAt buf it with
    | .error e => .error e
    | .ok ((fname, sec, nsec, hash), it') =>
      load_loop buf it' (assocInsert acc fname ⟨hash, sec, nsec, false⟩)
  else .ok acc
termination_by buf.length - it
decreasing_by
  have := decodeRecordAt_advance _hrec
  omega

/-- `load_sha1s` of `update_sha1s.C` on the byte content of the manifest
file (the I/O framing — open, read, sentinel write — is abstracted into
receiving the file content as a list). -/
def load_sha1s (buf : List Nat) : Except DecodeErr Manifest :=
  load_loop buf 0 []

/-- ASCII decimal digits of a natural number, as produced by `%ld`. -/
def natAscii (n : Nat) : List Nat :=
  if h : n < 10 then [48 + n] else natAscii (n / 10) ++ [48 + n % 10]
termination_by n
decreasing_by
  exact Nat.div_lt_self (by omega) (by omega)

/-- `snprintf %ld` of a (possibly negative) long. -/
def intAscii (n : Int) : List Nat :=
  if n < 0 then 45 :: natAscii (-n).toNat else natAscii n.toNat

/-- One record as written by the output loop of `main`
(`update_sha1s.C` lines 369-382): path NUL seconds `.` nanoseconds NUL
hash NUL newline. -/
def encodeRecord (p : List Nat) (fh : CFileHash) : List Nat :=
  p ++ [0] ++ intAscii fh.sec ++ [46] ++ intAscii fh.nsec ++ [0] ++ fh.hash ++ [0, 10]

/-- The whole output loop of `main`: concatenate the records, skipping
untouched entries when remove-missing mode (`-c`) is active. -/
def write_sha1s (remove_missing : Bool) (m : Manifest) : List Nat :=
  (m.filter (fun e => !(remove_missing && !e.2.touched))).map
    (fun e => encodeRecord e.1 e.2) |>.flatten

/-- Reading one NUL-terminated field: when the bytes after the cursor are
a NUL-free string, a NUL, then a tail, `get_string` returns exactly that
string and leaves the cursor on the tail. -/
theorem get_string_field {buf : List Nat} {it : Nat} {s t : List Nat}
    (hd : buf.drop it = s ++ 0 :: t) (hs : ∀ b ∈ s, b ≠ 0) :
    get_string buf it = .ok (s, it + s.length + 1) ∧ buf.drop (it + s.length + 1) = t := by
  have hlen : buf.length - it = s.length + t.length + 1 := by
    have := congrArg List.length hd
    simp at this
    omega
  have hit : it < buf.length := by
    by_contra hcon
    have : buf.drop it = [] := List.drop_eq_nil_of_le (by omega)
    rw [this] at hd
    exact absurd hd.symm (by simp)
  constructor
  · unfold get_string
    rw [if_neg (by omega), hd]
    rw [List.takeWhile_append_of_pos (by intro a ha; simpa using hs a ha)]
    simp [List.takeWhile_cons]
  · have hdd : buf.drop (it + s.length + 1) = (buf.drop it).drop (s.length + 1) := by
      rw [List.drop_drop]
      congr 1
    rw [hdd, hd, List.append_cons, List.drop_left' (by simp)]

/-- Reading a field that has no NUL terminator before the end of the
buffer: the C string runs into the sentinel and the cursor lands one past
the end. -/
theorem get_string_tailcase {buf : List Nat} {it : Nat}
    (hit : it < buf.length) (hs : ∀ b ∈ buf.drop it, b ≠ 0) :
    get_string buf it = .ok (buf.drop it, buf.length + 1) := by
  unfold get_string
  rw [if_neg (by omega)]
  have htw : (buf.drop it).takeWhile (fun b => b ≠ 0) = buf.drop it :=
    List.takeWhile_eq_self_iff.mpr (by intro a ha; simpa using hs a ha)
  simp only [htw, Except.ok.injEq, Prod.mk.injEq, true_and]
  have : (buf.drop it).length = buf.length - it := by simp
  omega

/-- Decimal digit bytes of `natAscii` are in the ASCII digit range. -/
theorem natAscii_digits {n : Nat} : ∀ b ∈ natAscii n, isDigitByte b = true := by
  induction n using Nat.strong_induction_on with
  | _ n ih =>
    intro b hb
    rw [natAscii] at hb
    split at hb
    · rename_i hlt
      simp at hb
      simp [isDigitByte, hb]
      omega
    · rename_i hge
      rcases List.mem_append.mp hb with h1 | h2
      · exact ih (n / 10) (Nat.div_lt_self (by omega) (by omega)) b h1
      · simp at h2
        have : n % 10 < 10 := Nat.mod_lt _ (by omega)
        simp [isDigitByte, h2]
        omega

/-- `natAscii` is never empty. -/
theorem natAscii_ne_nil {n : Nat} : natAscii n ≠ [] := by
  rw [natAscii]
  split <;> simp

/-- Folding the digit-accumulator over the digits of `n` recovers `n`. -/
theorem foldl_natAscii (n : Nat) : ∀ acc : Nat,
    (natAscii n).foldl (fun a d => a * 10 + (d - 48)) acc =
      acc * 10 ^ (natAscii n).length + n := by
  induction n using Nat.strong_induction_on with
  | _ n ih =>
    intro acc
    rw [natAscii]
    split
    · rename_i hlt
      simp
    · rename_i hge
      rw [List.foldl_append, ih (n / 10) (Nat.div_lt_self (by omega) (by omega)) acc]
      simp only [List.foldl_cons, List.foldl_nil, List.length_append, List.length_cons,
        List.length_nil, Nat.zero_add, pow_succ]
      have h48 : 48 + n % 10 - 48 = n % 10 := by omega
      rw [h48, ← Nat.mul_assoc]
      generalize acc * 10 ^ (natAscii (n / 10)).length = X
      omega

/-- `digitsVal` consumes exactly a block of digit bytes and stops at the
first non-digit (or the end). -/
theorem digitsVal_append {ds : List Nat} (hds : ∀ d ∈ ds, isDigitByte d = true)
    {r : List Nat} (hr : ∀ b, r.head? = some b → isDigitByte b = false) :
    ∀ acc, digitsVal (ds ++ r) acc = (ds.foldl (fun a d => a * 10 + (d - 48)) acc, r) := by
  induction ds with
  | nil =>
    intro acc
    cases r with
    | nil => simp [digitsVal]
    | cons b bs =>
      have hb := hr b rfl
      simp [digitsVal, hb]
  | cons d ds ihds =>
    intro acc
    have hd : isDigitByte d = true := hds d (by simp)
    simp only [List.cons_append, digitsVal, hd, if_true, List.foldl_cons]
    exact ihds (fun x hx => hds x (by simp [hx])) (acc * 10 + (d - 48))

/-- `strtol` applied to the decimal rendering of `n` followed by a
non-digit remainder: it parses back `n` and stops at the remainder. -/
theorem strtol10_natAscii (n : Nat) {r : List Nat}
    (hr : ∀ b, r.head? = some b → isDigitByte b = false) :
    strtol10 (natAscii n ++ r) = ((n : Int), r) := by
  obtain ⟨d, tl, hdt⟩ : ∃ d tl, natAscii n = d :: tl := by
    cases hna : natAscii n with
    | nil => exact absurd hna natAscii_ne_nil
    | cons d tl => exact ⟨d, tl, rfl⟩
  have hd : isDigitByte d = true := natAscii_digits d (by rw [hdt]; simp)
  have hd' : 48 ≤ d ∧ d ≤ 57 := by
    have := hd
    simp [isDigitByte] at this
    omega
  unfold strtol10
  have hnospace : (natAscii n ++ r).dropWhile isSpaceByte = natAscii n ++ r := by
    rw [hdt, List.cons_append, List.dropWhile_cons]
    have : isSpaceByte d = false := by
      simp [isSpaceByte]
      omega
    simp [this]
  rw [hnospace]
  have hdig : digitsVal (natAscii n ++ r) 0 = (n, r) := by
    rw [digitsVal_append natAscii_digits hr 0, foldl_natAscii]
    simp
  rw [hdt, List.cons_append]
  split
  · rename_i rest heq
    exfalso
    injection heq with h45 _
    omega
  · rename_i rest heq
    exfalso
    injection heq with h43 _
    omega
  · rename_i hne1 hne2
    have hdig' : digitsVal (d :: (tl ++ r)) 0 = (n, r) := by
      rw [← List.cons_append, ← hdt]
      exact hdig
    simp [hd, hdig']

/-- `%ld` of a non-negative long is its plain decimal rendering. -/
theorem intAscii_nonneg {n : Int} (h : 0 ≤ n) : intAscii n = natAscii n.toNat := by
  unfold intAscii
  rw [if_neg (by omega)]

/-- `strtol` over a rendered non-negative long followed by a `.`-headed
remainder. -/
theorem strtol10_int {n : Int} (hn : 0 ≤ n) {r : List Nat}
    (hr : ∀ b, r.head? = some b → isDigitByte b = false) :
    strtol10 (intAscii n ++ r) = (n, r) := by
  rw [intAscii_nonneg hn, strtol10_natAscii n.toNat hr, Int.toNat_of_nonneg hn]

/-- Digit bytes are nonzero. -/
theorem natAscii_nonzero {n : Nat} : ∀ b ∈ natAscii n, b ≠ 0 := by
  intro b hb
  have := natAscii_digits b hb
  simp [isDigitByte] at this
  omega

/-- Parsing one well-formed encoded record from the middle of a buffer:
the decoder recovers exactly the record's fields and moves the cursor
just past the record's bytes. -/
theorem decodeRecordAt_encoded (pre rest p : List Nat) (fh : CFileHash)
    (hp : ∀ b ∈ p, b ≠ 0) (hh : ∀ b ∈ fh.hash, b ≠ 0)
    (hsec : 0 ≤ fh.sec) (hnsec : 0 ≤ fh.nsec) :
    decodeRecordAt (pre ++ encodeRecord p fh ++ rest) pre.length =
      .ok ((p, fh.sec, fh.nsec, fh.hash), pre.length + (encodeRecord p fh).length) := by
  set buf := pre ++ encodeRecord p fh ++ rest with hbuf
  set A := intAscii fh.sec with hA
  set B := intAscii fh.nsec with hB
  have hAnz : ∀ b ∈ A, b ≠ 0 := by
    rw [hA, intAscii_nonneg hsec]
    exact natAscii_nonzero
  have hBnz : ∀ b ∈ B, b ≠ 0 := by
    rw [hB, intAscii_nonneg hnsec]
    exact natAscii_nonzero
  have hd0 : buf.drop pre.length =
      p ++ 0 :: (A ++ 46 :: (B ++ 0 :: (fh.hash ++ 0 :: 10 :: rest))) := by
    rw [hbuf, List.append_assoc, List.drop_left]
    simp [encodeRecord]
  obtain ⟨eq1, hd1⟩ := get_string_field hd0 hp
  have hd1' : buf.drop (pre.length + p.length + 1) =
      (A ++ 46 :: B) ++ 0 :: (fh.hash ++ 0 :: 10 :: rest) := by
    rw [hd1]
    simp
  have hs2 : ∀ b ∈ A ++ 46 :: B, b ≠ 0 := by
    intro b hb
    rcases List.mem_append.mp hb with h1 | h2
    · exact hAnz b h1
    · rcases List.mem_cons.mp h2 with h3 | h4
      · omega
      · exact hBnz b h4
  obtain ⟨eq2, hd2⟩ := get_string_field hd1' hs2
  obtain ⟨eq3, hd3⟩ := get_string_field hd2 hh
  have hstr1 : strtol10 (A ++ 46 :: B) = (fh.sec, 46 :: B) := by
    rw [hA]
    exact strtol10_int hsec (by intro b hb; simp at hb; subst hb; decide)
  have hstr2 : strtol10 B = (fh.nsec, []) := by
    have := strtol10_int hnsec (r := []) (by intro b hb; simp at hb)
    simpa using this
  set it3 := pre.length + p.length + 1 + (A ++ 46 :: B).length + 1 + fh.hash.length + 1
    with hit3
  have hlen3 : buf.length = it3 + 1 + rest.length := by
    have := congrArg List.length hd3
    simp only [List.length_drop, List.length_cons] at this
    have hge : it3 ≤ buf.length := by
      by_contra hcon
      have hnil : buf.drop it3 = [] := List.drop_eq_nil_of_le (by omega)
      rw [hnil] at hd3
      exact absurd hd3.symm (by simp)
    omega
  have hnlt : ¬ buf.length < it3 := by omega
  have hne3 : ¬ it3 = buf.length := by omega
  have hbyte : buf.getD it3 0 = 10 := by
    have h0 : buf[it3]? = (buf.drop it3)[0]? := by
      rw [List.getElem?_drop]
    rw [hd3] at h0
    simp at h0
    simp [List.getD, h0]
  simp only [decodeRecordAt, eq1, eq2, eq3, hstr1, hstr2]
  simp only [ne_eq, not_true_eq_false, if_false, ite_false, ite_true, not_false_eq_true,
    hnlt, hne3, hbyte]
  rw [hit3]
  simp [encodeRecord, ← hA, ← hB, List.length_append, List.length_cons]
  omega

/-- Concatenated encodings of a record list, the body of the manifest
write loop without the remove-missing filter. -/
def encodeRecords (rs : Manifest) : List Nat :=
  (rs.map (fun e => encodeRecord e.1 e.2)).flatten

/-- Well-formedness of records as the claims assume them: NUL-free paths
and hashes, non-negative timestamps. -/
abbrev RecordsWF (rs : Manifest) : Prop :=
  ∀ e ∈ rs, (∀ b ∈ e.1, b ≠ 0) ∧ (∀ b ∈ e.2.hash, b ≠ 0) ∧ 0 ≤ e.2.sec ∧ 0 ≤ e.2.nsec

/-- Folding the decoder's map-assignment over a record list, as the
decode loop does; decoded entries always carry `touched := false`. -/
def insertRecords (acc : Manifest) (rs : Manifest) : Manifest :=
  rs.foldl (fun a e => assocInsert a e.1 ⟨e.2.hash, e.2.sec, e.2.nsec, false⟩) acc

/-- An encoded record is never shorter than its five delimiter bytes. -/
theorem encodeRecord_length (p : List Nat) (fh : CFileHash) :
    5 ≤ (encodeRecord p fh).length := by
  simp [encodeRecord]
  omega

/-- Processing the encoded records at the front of the buffer advances
the cursor exactly past their bytes, accumulating the records in order. -/
theorem load_loop_encoded_cont (rs : Manifest) (hwf : RecordsWF rs) (tail : List Nat) :
    ∀ (pre : List Nat) (acc : Manifest),
      load_loop (pre ++ encodeRecords rs ++ tail) pre.length acc =
        load_loop (pre ++ encodeRecords rs ++ tail)
          (pre.length + (encodeRecords rs).length) (insertRecords acc rs) := by
  induction rs with
  | nil =>
    intro pre acc
    simp [encodeRecords, insertRecords]
  | cons e rs ih =>
    intro pre acc
    obtain ⟨hp, hh, hsec, hnsec⟩ := hwf e (by simp)
    have hwf' : RecordsWF rs := fun x hx => hwf x (by simp [hx])
    have hshape : pre ++ encodeRecords (e :: rs) ++ tail =
        pre ++ encodeRecord e.1 e.2 ++ (encodeRecords rs ++ tail) := by
      simp [encodeRecords]
    have hstep := decodeRecordAt_encoded pre (encodeRecords rs ++ tail) e.1 e.2 hp hh hsec hnsec
    rw [hshape]
    conv_lhs => rw [load_loop]
    have hcond : pre.length + 1 < (pre ++ encodeRecord e.1 e.2 ++ (encodeRecords rs ++ tail)).length := by
      have := encodeRecord_length e.1 e.2
      simp
      omega
    rw [dif_pos hcond]
    split
    · rename_i err heq
      rw [hstep] at heq
      exact Except.noConfusion heq
    · rename_i fname sec nsec hsh it' heq
      rw [hstep] at heq
      injection heq with heq1
      injection heq1 with heq2 heq3
      simp only [Prod.mk.injEq] at heq2
      obtain ⟨h4, h5, h6, h7⟩ := heq2
      subst h4 h5 h6 h7 heq3
      have ih' := ih hwf' (pre ++ encodeRecord e.1 e.2)
        (assocInsert acc e.1 ⟨e.2.hash, e.2.sec, e.2.nsec, false⟩)
      rw [List.append_assoc (pre ++ encodeRecord e.1 e.2) (encodeRecords rs) tail,
        List.length_append] at ih'
      rw [ih']
      congr 1
      simp [encodeRecords]
      omega

/-- When at most one byte remains before the sentinel, the decode loop
stops and returns the accumulated map (the C loop condition
`(buf + size) - it > 1` fails). -/
theorem load_loop_stop (buf : List Nat) (it : Nat) (acc : Manifest)
    (h : buf.length ≤ it + 1) : load_loop buf it acc = .ok acc := by
  rw [load_loop, dif_neg (by omega)]

/-- Erase the transient `touched` flag of every record. -/
def clearTouched (m : Manifest) : Manifest :=
  m.map (fun e => (e.1, { e.2 with touched := false }))

/-- Lookup after insert-or-assign. -/
theorem assocLookup_insert {β : Type} (m : List (List Nat × β)) (k : List Nat) (v : β)
    (k' : List Nat) :
    assocLookup (assocInsert m k v) k' = if k = k' then some v else assocLookup m k' := by
  induction m with
  | nil => by_cases h : k = k' <;> simp [assocInsert, assocLookup, h]
  | cons e rest ih =>
    by_cases hek : e.1 = k
    · by_cases h : k = k'
      · simp [assocInsert, assocLookup, hek, h]
      · have he' : ¬ e.1 = k' := fun hc => h (hek.symm.trans hc)
        simp [assocInsert, assocLookup, hek, h, he']
    · by_cases hek' : e.1 = k'
      · have h1 : ¬ k = k' := fun hc => hek (hek'.trans hc.symm)
        have h2 : ¬ k' = k := fun hc => h1 hc.symm
        simp [assocInsert, assocLookup, hek, hek', h1, h2]
      · simp [assocInsert, assocLookup, hek, hek', ih]

/-- Inserting an absent key appends the new entry at the end. -/
theorem assocInsert_not_mem {β : Type} {m : List (List Nat × β)} {k : List Nat} (v : β)
    (h : assocLookup m k = none) : assocInsert m k v = m ++ [(k, v)] := by
  induction m with
  | nil => simp [assocInsert]
  | cons e rest ih =>
    by_cases he : e.1 = k
    · simp [assocLookup, he] at h
    · simp only [assocLookup, he, if_false, if_neg he] at h ⊢
      rw [assocInsert, if_neg he, ih h]
      simp

/-- Folding the decoder's assignments over records whose paths are unique
and absent from the accumulator just appends the cleared records. -/
theorem insertRecords_nodup_append (rs : Manifest) :
    ∀ acc, (∀ e ∈ rs, assocLookup acc e.1 = none) → (rs.map Prod.fst).Nodup →
      insertRecords acc rs = acc ++ clearTouched rs := by
  induction rs with
  | nil =>
    intro acc _ _
    simp [insertRecords, clearTouched]
  | cons e rs ih =>
    intro acc hacc hnd
    have hins : assocInsert acc e.1 ⟨e.2.hash, e.2.sec, e.2.nsec, false⟩ =
        acc ++ [(e.1, ⟨e.2.hash, e.2.sec, e.2.nsec, false⟩)] :=
      assocInsert_not_mem _ (hacc e (by simp))
    have hnd' : (rs.map Prod.fst).Nodup := (List.nodup_cons.mp hnd).2
    have hhead : e.1 ∉ rs.map Prod.fst := (List.nodup_cons.mp hnd).1
    have hacc' : ∀ x ∈ rs, assocLookup (assocInsert acc e.1 ⟨e.2.hash, e.2.sec, e.2.nsec, false⟩) x.1 = none := by
      intro x hx
      rw [assocLookup_insert]
      have hne : ¬ e.1 = x.1 := by
        intro hc
        exact hhead (by rw [hc]; exact List.mem_map_of_mem Prod.fst hx)
      rw [if_neg hne]
      exact hacc x (by simp [hx])
    have : insertRecords acc (e :: rs) =
        insertRecords (assocInsert acc e.1 ⟨e.2.hash, e.2.sec, e.2.nsec, false⟩) rs := by
      simp [insertRecords]
    rw [this, ih _ hacc' hnd', hins]
    simp [clearTouched]

/-- Lookups in the decoded map take the value of the last record with the
looked-up path. -/
theorem assocLookup_insertRecords (rs : Manifest) :
    ∀ (acc : Manifest) (k : List Nat),
      assocLookup (insertRecords acc rs) k =
        rs.foldl (fun r e =>
          if e.1 = k then some (⟨e.2.hash, e.2.sec, e.2.nsec, false⟩ : CFileHash) else r)
          (assocLookup acc k) := by
  induction rs with
  | nil =>
    intro acc k
    simp [insertRecords]
  | cons e rs ih =>
    intro acc k
    have h1 : insertRecords acc (e :: rs) =
        insertRecords (assocInsert acc e.1 ⟨e.2.hash, e.2.sec, e.2.nsec, false⟩) rs := by
      simp [insertRecords]
    rw [h1, ih, List.foldl_cons]
    congr 1
    rw [assocLookup_insert]

/-- Keys of an insert-or-assign result come from the old keys or the
inserted key. -/
theorem assocInsert_mem_keys {β : Type} (m : List (List Nat × β)) (k : List Nat) (v : β)
    (x : List Nat) :
    x ∈ (assocInsert m k v).map Prod.fst → x ∈ m.map Prod.fst ∨ x = k := by
  induction m with
  | nil =>
    intro hx
    rw [assocInsert] at hx
    simp at hx
    right
    exact hx
  | cons e rest ih =>
    intro hx
    by_cases he : e.1 = k
    · rw [assocInsert, if_pos he, List.map_cons, List.mem_cons] at hx
      rcases hx with h1 | h2
      · right
        exact h1
      · left
        rw [List.map_cons, List.mem_cons]
        right
        exact h2
    · rw [assocInsert, if_neg he, List.map_cons, List.mem_cons] at hx
      rcases hx with h1 | h2
      · left
        rw [List.map_cons, List.mem_cons]
        left
        exact h1
      · rcases ih h2 with h3 | h4
        · left
          rw [List.map_cons, List.mem_cons]
          right
          exact h3
        · right
          exact h4

/-- Insert-or-assign preserves key uniqueness. -/
theorem assocInsert_nodup {β : Type} (m : List (List Nat × β)) (k : List Nat) (v : β)
    (h : (m.map Prod.fst).Nodup) : ((assocInsert m k v).map Prod.fst).Nodup := by
  induction m with
  | nil => simp [assocInsert]
  | cons e rest ih =>
    rw [List.map_cons, List.nodup_cons] at h
    by_cases he : e.1 = k
    · simp only [assocInsert, he, if_true, List.map_cons, List.nodup_cons]
      rw [← he]
      exact h
    · simp only [assocInsert, he, if_false, if_neg he, List.map_cons, List.nodup_cons]
      constructor
      · intro hmem
        rcases assocInsert_mem_keys rest k v e.1 hmem with h1 | h2
        · exact h.1 h1
        · exact he h2
      · exact ih h.2

/-- The decode loop always produces a map with unique keys. -/
theorem insertRecords_nodup (rs : Manifest) :
    ∀ acc : Manifest, (acc.map Prod.fst).Nodup →
      ((insertRecords acc rs).map Prod.fst).Nodup := by
  induction rs with
  | nil =>
    intro acc hacc
    simpa [insertRecords] using hacc
  | cons e rs ih =>
    intro acc hacc
    have h1 : insertRecords acc (e :: rs) =
        insertRecords (assocInsert acc e.1 ⟨e.2.hash, e.2.sec, e.2.nsec, false⟩) rs := by
      simp [insertRecords]
    rw [h1]
    exact ih _ (assocInsert_nodup acc e.1 _ hacc)

/-- Lowercase hexadecimal digit bytes, as produced by `%08x`. -/
def isHexDigitByte (b : Nat) : Bool := (48 ≤ b && b ≤ 57) || (97 ≤ b && b ≤ 102)

/-- C1: for every manifest whose paths are unique and NUL-free, whose
hashes are 40 lowercase hex characters, and whose timestamps are
non-negative, decoding the encoding yields the same manifest with every
`touched` flag cleared: `decode(encode(m)) == m` up to `touched`. -/
theorem manifest_roundtrip (m : Manifest)
    (hpaths : (m.map Prod.fst).Nodup)
    (hwf : ∀ e ∈ m, (∀ b ∈ e.1, b ≠ 0) ∧
      e.2.hash.length = 40 ∧ (∀ b ∈ e.2.hash, isHexDigitByte b = true) ∧
      0 ≤ e.2.sec ∧ 0 ≤ e.2.nsec) :
    load_sha1s (write_sha1s false m) = .ok (clearTouched m) := by
  have hwr : write_sha1s false m = encodeRecords m := by
    simp [write_sha1s, encodeRecords]
  have hrwf : RecordsWF m := by
    intro e he
    obtain ⟨h1, _, h3, h4, h5⟩ := hwf e he
    refine ⟨h1, ?_, h4, h5⟩
    intro b hb
    have := h3 b hb
    simp [isHexDigitByte] at this
    omega
  have hcont := load_loop_encoded_cont m hrwf [] [] []
  simp only [List.nil_append, List.append_nil, List.length_nil, Nat.zero_add] at hcont
  rw [load_sha1s, hwr, hcont, load_loop_stop _ _ _ (by omega)]
  rw [insertRecords_nodup_append m [] (by intro e _; rfl) hpaths]
  simp

/-- Witness for C1 at a one-record manifest with a concrete 40-hex hash. -/
theorem manifest_roundtrip_holds :
    load_sha1s (write_sha1s false
      [([97], ⟨[48, 49, 50, 51, 52, 53, 54, 55, 56, 57, 97, 98, 99, 100, 101, 102,
        48, 49, 50, 51, 52, 53, 54, 55, 56, 57, 97, 98, 99, 100, 101, 102,
        48, 49, 50, 51, 52, 53, 54, 55], 5, 7, true⟩)]) =
      .ok (clearTouched
      [([97], ⟨[48, 49, 50, 51, 52, 53, 54, 55, 56, 57, 97, 98, 99, 100, 101, 102,
        48, 49, 50, 51, 52, 53, 54, 55, 56, 57, 97, 98, 99, 100, 101, 102,
        48, 49, 50, 51, 52, 53, 54, 55], 5, 7, true⟩)]) :=
  manifest_roundtrip _ (by decide) (by decide)

/-- C9: a well-delimited input whose records repeat a path decodes
without error; the resulting map sends each path to the hash and
timestamp of its last record, and its keys are unique. -/
theorem duplicate_paths_last_wins (rs : Manifest) (hwf : RecordsWF rs)
    (_hdup : ¬ (rs.map Prod.fst).Nodup) :
    ∃ m, load_sha1s (encodeRecords rs) = .ok m ∧
      (∀ k, assocLookup m k = rs.foldl
        (fun r e => if e.1 = k then some ⟨e.2.hash, e.2.sec, e.2.nsec, false⟩ else r) none) ∧
      (m.map Prod.fst).Nodup := by
  refine ⟨insertRecords [] rs, ?_, ?_, ?_⟩
  · have hcont := load_loop_encoded_cont rs hwf [] [] []
    simp only [List.nil_append, List.append_nil, List.length_nil, Nat.zero_add] at hcont
    rw [load_sha1s, hcont, load_loop_stop _ _ _ (by omega)]
  · intro k
    have h := assocLookup_insertRecords rs [] k
    simpa using h
  · exact insertRecords_nodup rs [] (by simp)

/-- Witness for C9 on an input carrying the same path twice. -/
theorem duplicate_paths_last_wins_holds :
    ∃ m, load_sha1s (encodeRecords
        [([97], ⟨[104], 1, 2, true⟩), ([97], ⟨[105], 3, 4, false⟩)]) = .ok m ∧
      (∀ k, assocLookup m k =
        [([97], (⟨[104], 1, 2, true⟩ : CFileHash)), ([97], ⟨[105], 3, 4, false⟩)].foldl
          (fun r e => if e.1 = k then some ⟨e.2.hash, e.2.sec, e.2.nsec, false⟩ else r) none) ∧
      (m.map Prod.fst).Nodup :=
  duplicate_paths_last_wins _ (by decide) (by decide)

/-- Parsing a final record whose hash-terminating NUL is the last byte of
the file: the record-terminator check reads the appended sentinel and the
record is accepted even though its trailing terminator byte is missing. -/
theorem decodeRecordAt_final (pre p : List Nat) (fh : CFileHash)
    (hp : ∀ b ∈ p, b ≠ 0) (hh : ∀ b ∈ fh.hash, b ≠ 0)
    (hsec : 0 ≤ fh.sec) (hnsec : 0 ≤ fh.nsec) :
    decodeRecordAt
        (pre ++ (p ++ [0] ++ intAscii fh.sec ++ [46] ++ intAscii fh.nsec ++ [0] ++ fh.hash ++ [0]))
        pre.length =
      .ok ((p, fh.sec, fh.nsec, fh.hash),
        (pre ++ (p ++ [0] ++ intAscii fh.sec ++ [46] ++ intAscii fh.nsec ++ [0] ++ fh.hash ++ [0])).length + 1) := by
  set buf := pre ++ (p ++ [0] ++ intAscii fh.sec ++ [46] ++ intAscii fh.nsec ++ [0] ++ fh.hash ++ [0])
    with hbuf
  set A := intAscii fh.sec with hA
  set B := intAscii fh.nsec with hB
  have hAnz : ∀ b ∈ A, b ≠ 0 := by
    rw [hA, intAscii_nonneg hsec]
    exact natAscii_nonzero
  have hBnz : ∀ b ∈ B, b ≠ 0 := by
    rw [hB, intAscii_nonneg hnsec]
    exact natAscii_nonzero
  have hd0 : buf.drop pre.length = p ++ 0 :: (A ++ 46 :: (B ++ 0 :: (fh.hash ++ 0 :: []))) := by
    rw [hbuf, List.drop_left]
    simp
  obtain ⟨eq1, hd1⟩ := get_string_field hd0 hp
  have hd1' : buf.drop (pre.length + p.length + 1) =
      (A ++ 46 :: B) ++ 0 :: (fh.hash ++ 0 :: []) := by
    rw [hd1]
    simp
  have hs2 : ∀ b ∈ A ++ 46 :: B, b ≠ 0 := by
    intro b hb
    rcases List.mem_append.mp hb with h1 | h2
    · exact hAnz b h1
    · rcases List.mem_cons.mp h2 with h3 | h4
      · omega
      · exact hBnz b h4
  obtain ⟨eq2, hd2⟩ := get_string_field hd1' hs2
  obtain ⟨eq3, hd3⟩ := get_string_field hd2 hh
  have hstr1 : strtol10 (A ++ 46 :: B) = (fh.sec, 46 :: B) := by
    rw [hA]
    exact strtol10_int hsec (by intro b hb; simp at hb; subst hb; decide)
  have hstr2 : strtol10 B = (fh.nsec, []) := by
    have := strtol10_int hnsec (r := []) (by intro b hb; simp at hb)
    simpa using this
  set it3 := pre.length + p.length + 1 + (A ++ 46 :: B).length + 1 + fh.hash.length + 1
    with hit3
  have hlen2 : buf.length - (pre.length + p.length + 1 + (A ++ 46 :: B).length + 1) =
      fh.hash.length + 1 := by
    have := congrArg List.length hd2
    simpa using this
  have hle2 : pre.length + p.length + 1 + (A ++ 46 :: B).length + 1 < buf.length := by
    by_contra hcon
    have hnil : buf.drop (pre.length + p.length + 1 + (A ++ 46 :: B).length + 1) = [] :=
      List.drop_eq_nil_of_le (by omega)
    rw [hnil] at hd2
    exact absurd hd2.symm (by simp)
  have hlen3 : buf.length = it3 := by omega
  have hnlt : ¬ buf.length < it3 := by omega
  simp only [decodeRecordAt, eq1, eq2, eq3, hstr1, hstr2]
  simp only [ne_eq, not_true_eq_false, if_false, hnlt, if_neg hnlt]
  rw [if_pos hlen3.symm]
  simp only [ne_eq, not_true_eq_false]
  rw [if_neg (by simp)]
  rw [hlen3]

/-- Decoding a buffer that ends with a final record whose closing
terminator byte is absent: the record is still decoded and assigned. -/
theorem load_loop_final (pre p : List Nat) (fh : CFileHash) (acc : Manifest)
    (hp : ∀ b ∈ p, b ≠ 0) (hh : ∀ b ∈ fh.hash, b ≠ 0)
    (hsec : 0 ≤ fh.sec) (hnsec : 0 ≤ fh.nsec) :
    load_loop (pre ++ (p ++ [0] ++ intAscii fh.sec ++ [46] ++ intAscii fh.nsec ++ [0] ++ fh.hash ++ [0]))
        pre.length acc =
      .ok (assocInsert acc p ⟨fh.hash, fh.sec, fh.nsec, false⟩) := by
  have hstep := decodeRecordAt_final pre p fh hp hh hsec hnsec
  rw [load_loop]
  have hcond : pre.length + 1 <
      (pre ++ (p ++ [0] ++ intAscii fh.sec ++ [46] ++ intAscii fh.nsec ++ [0] ++ fh.hash ++ [0])).length := by
    simp
    omega
  rw [dif_pos hcond]
  split
  · rename_i err heq
    rw [hstep] at heq
    exact Except.noConfusion heq
  · rename_i fname sec nsec hsh it' heq
    rw [hstep] at heq
    injection heq with heq1
    injection heq1 with heq2 heq3
    simp only [Prod.mk.injEq] at heq2
    obtain ⟨h4, h5, h6, h7⟩ := heq2
    subst h4 h5 h6 h7 heq3
    exact load_loop_stop _ _ _ (by omega)

/-- A record field that runs to end of input with no NUL: the cursor is
pushed past the sentinel and the next field read fails as truncated. -/
theorem get_string_past_end (buf : List Nat) {it : Nat} (h : buf.length ≤ it) :
    get_string buf it = .error .truncated := by
  rw [get_string, if_pos h]

/-- C5 counterexample: the byte sequence `97 0 49 46 50 0 104 0` is the
record `path "a", time "1.2", hash "h"` whose record terminator after the
hash's NUL is missing (the file simply ends).  The claim says decoding
must fail with a fatal FormatError; instead the decoder accepts the
input, because the terminator check reads the NUL sentinel the loader
appends at `buf[size]`. -/
theorem decode_missing_final_term_ok :
    load_sha1s [97, 0, 49, 46, 50, 0, 104, 0] = .ok [([97], ⟨[104], 1, 2, false⟩)] := by
  have h := load_loop_final [] [97] ⟨[104], 1, 2, false⟩ []
    (by decide) (by decide) (by decide) (by decide)
  have e1 : intAscii (1 : Int) = [49] := by
    rw [intAscii, if_neg (by omega), natAscii]
    decide
  have e2 : intAscii (2 : Int) = [50] := by
    rw [intAscii, if_neg (by omega), natAscii]
    decide
  rw [e1, e2] at h
  simpa [load_sha1s, assocInsert] using h

/-- C5 amended: a record whose path field (or, after a complete path
field, whose timestamp field) has no NUL terminator before end of input
makes decoding fail with the fatal truncation error; but a missing record
terminator after the final record's NUL-terminated hash is silently
accepted, and a single trailing byte after the last complete record is
silently ignored. -/
theorem decode_truncation_behavior :
    (∀ (buf : List Nat) (it : Nat) (acc : Manifest), it + 1 < buf.length →
      (∀ b ∈ buf.drop it, b ≠ 0) → load_loop buf it acc = .error .truncated) ∧
    (∀ (buf : List Nat) (it : Nat) (acc : Manifest) (s t : List Nat), it + 1 < buf.length →
      buf.drop it = s ++ 0 :: t → (∀ b ∈ s, b ≠ 0) → t ≠ [] → (∀ b ∈ t, b ≠ 0) →
      load_loop buf it acc = .error .truncated) ∧
    (∀ (rs : Manifest) (p : List Nat) (fh : CFileHash), RecordsWF rs →
      (∀ b ∈ p, b ≠ 0) → (∀ b ∈ fh.hash, b ≠ 0) → 0 ≤ fh.sec → 0 ≤ fh.nsec →
      load_sha1s (encodeRecords rs ++
          (p ++ [0] ++ intAscii fh.sec ++ [46] ++ intAscii fh.nsec ++ [0] ++ fh.hash ++ [0])) =
        .ok (assocInsert (insertRecords [] rs) p ⟨fh.hash, fh.sec, fh.nsec, false⟩)) ∧
    (∀ (rs : Manifest) (b : Nat), RecordsWF rs →
      load_sha1s (encodeRecords rs ++ [b]) = load_sha1s (encodeRecords rs)) := by
  refine ⟨?_, ?_, ?_, ?_⟩
  · intro buf it acc hlt hnz
    have h1 : get_string buf it = .ok (buf.drop it, buf.length + 1) :=
      get_string_tailcase (by omega) hnz
    have h2 : get_string buf (buf.length + 1) = .error .truncated :=
      get_string_past_end buf (by omega)
    have hrec : decodeRecordAt buf it = .error .truncated := by
      simp only [decodeRecordAt, h1, h2]
    rw [load_loop, dif_pos hlt]
    split
    · rename_i e heq
      rw [hrec] at heq
      injection heq with he
      rw [he]
    · rename_i fname sec nsec hsh it' heq
      rw [hrec] at heq
      exact Except.noConfusion heq
  · intro buf it acc s t hlt hd hs ht htnz
    obtain ⟨eq1, hd1⟩ := get_string_field hd hs
    have hlen1 : it + s.length + 1 < buf.length := by
      have hlt1 : buf.length - (it + s.length + 1) = t.length := by
        have := congrArg List.length hd1
        simpa using this
      have hne : 0 < t.length := by
        cases t with
        | nil => exact absurd rfl ht
        | cons x xs => simp
      by_contra hcon
      omega
    have eq2 : get_string buf (it + s.length + 1) = .ok (t, buf.length + 1) := by
      have := get_string_tailcase hlen1 (by rw [hd1]; exact htnz)
      rw [hd1] at this
      exact this
    have h3 : get_string buf (buf.length + 1) = .error .truncated :=
      get_string_past_end buf (by omega)
    have hrec : decodeRecordAt buf it = .error .truncated := by
      simp only [decodeRecordAt, eq1, eq2, h3]
    rw [load_loop, dif_pos hlt]
    split
    · rename_i e heq
      rw [hrec] at heq
      injection heq with he
      rw [he]
    · rename_i fname sec nsec hsh it' heq
      rw [hrec] at heq
      exact Except.noConfusion heq
  · intro rs p fh hwf hp hh hsec hnsec
    have hcont := load_loop_encoded_cont rs hwf
      (p ++ [0] ++ intAscii fh.sec ++ [46] ++ intAscii fh.nsec ++ [0] ++ fh.hash ++ [0]) [] []
    simp only [List.nil_append, List.length_nil, Nat.zero_add] at hcont
    rw [load_sha1s, hcont]
    exact load_loop_final (encodeRecords rs) p fh (insertRecords [] rs) hp hh hsec hnsec
  · intro rs b hwf
    have hcont1 := load_loop_encoded_cont rs hwf [b] [] []
    have hcont2 := load_loop_encoded_cont rs hwf [] [] []
    simp only [List.nil_append, List.append_nil, List.length_nil, Nat.zero_add] at hcont1 hcont2
    rw [load_sha1s, load_sha1s, hcont1, hcont2,
      load_loop_stop _ _ _ (by simp), load_loop_stop _ _ _ (by omega)]

/-- Witness for the provable parts of the amended C5 on concrete inputs. -/
theorem decode_truncation_behavior_holds :
    load_loop [97, 98] 0 [] = .error .truncated ∧
    load_sha1s (encodeRecords [] ++ [10]) = load_sha1s (encodeRecords []) := by
  constructor
  · exact decode_truncation_behavior.1 [97, 98] 0 [] (by decide) (by decide)
  · exact decode_truncation_behavior.2.2.2 [] 10 (by intro e he; simp at he)

/-- C10: one non-failing iteration of the decode loop advances the read
cursor by at least four bytes (three NUL-terminated fields plus the
record terminator), so the loop over a finite buffer makes at most
`size / 4 + 1` iterations; the loop is defined here by well-founded
recursion on exactly that measure. -/
theorem decode_step_advances (buf : List Nat) (it : Nat)
    (r : List Nat × Int × Int × List Nat) (it' : Nat)
    (h : decodeRecordAt buf it = .ok (r, it')) : it + 4 ≤ it' :=
  decodeRecordAt_advance h

/-- Witness for C10 on a complete concrete record. -/
theorem decode_step_advances_holds :
    decodeRecordAt [97, 0, 49, 46, 50, 0, 104, 0, 10] 0 = .ok (([97], 1, 2, [104]), 9) ∧
      0 + 4 ≤ 9 :=
  ⟨rfl, decode_step_advances [97, 0, 49, 46, 50, 0, 104, 0, 10] 0 ([97], 1, 2, [104]) 9 rfl⟩

namespace compare

/-- One iteration of the record loops of `compare_sha1s.C` (lines 82-89
and 129-136): three NUL-terminated fields and a terminator byte; unlike
the updater, the compare tool never parses the timestamp. -/
def recordAt (buf : List Nat) (it : Nat) :
    Except DecodeErr ((List Nat × List Nat × List Nat) × Nat) :=
  match get_string buf it with
  | .error e => .error e
  | .ok (fname, it1) =>
    match get_string buf it1 with
    | .error e => .error e
    | .ok (time, it2) =>
      match get_string buf it2 with
      | .error e => .error e
      | .ok (hash, it3) =>
        if buf.length < it3 then .error .oobRead
        else
          let b := if it3 = buf.length then 0 else buf.getD it3 0
          if b ≠ 0 ∧ b ≠ 10 then .error .expectedTerm
          else .ok ((fname, time, hash), it3 + 1)

/-- Cursor advance of one compare-tool record parse. -/
theorem recordAt_advance {buf : List Nat} {it : Nat} {r it'}
    (h : recordAt buf it = .ok (r, it')) : it + 4 ≤ it' := by
  unfold recordAt at h
  split at h
  · simp at h
  rename_i fname it1 h1
  split at h
  · simp at h
  rename_i time it2 h2
  split at h
  · simp at h
  rename_i hash it3 h3
  have a1 := get_string_advance h1
  have a2 := get_string_advance h2
  have a3 := get_string_advance h3
  repeat' split at h
  all_goals try exact Except.noConfusion h
  all_goals simp at h
  all_goals try split at h
  all_goals try exact Except.noConfusion h
  all_goals try simp at h
  all_goals omega

/-- The record loop of `load_sha1s` in `compare_sha1s.C`: build the map
keyed by hash, `tmp[hash] = fname`. -/
def load_loop (buf : List Nat) (it : Nat) (acc : List (List Nat × List Nat)) :
    Except DecodeErr (List (List Nat × List Nat)) :=
  if _h : it + 1 < buf.length then
    match _hrec : recordAt buf it with
    | .error e => .error e
    | .ok ((fname, _time, hash), it') => load_loop buf it' (assocInsert acc hash fname)
  else .ok acc
termination_by buf.length - it
decreasing_by
  have := recordAt_advance _hrec
  omega

/-- `load_sha1s` of `compare_sha1s.C` on a file's byte content. -/
def load_sha1s (buf : List Nat) : Except DecodeErr (List (List Nat × List Nat)) :=
  load_loop buf 0 []

/-- The record loop of `compare_sha1s`: print (collect, in order) each
remote file name whose hash is absent from the local map. -/
def compare_loop (m : List (List Nat × List Nat)) (buf : List Nat) (it : Nat)
    (out : List (List Nat)) : Except DecodeErr (List (List Nat)) :=
  if _h : it + 1 < buf.length then
    match _hrec : recordAt buf it with
    | .error e => .error e
    | .ok ((fname, _time, hash), it') =>
      compare_loop m buf it'
        (if assocLookup m hash = none then out ++ [fname] else out)
  else .ok out
termination_by buf.length - it
decreasing_by
  have := recordAt_advance _hrec
  omega

/-- `compare_sha1s` of `compare_sha1s.C` on a file's byte content. -/
def compare_sha1s (m : List (List Nat × List Nat)) (buf : List Nat) :
    Except DecodeErr (List (List Nat)) :=
  compare_loop m buf 0 []

/-- `main` of `compare_sha1s.C`: load the local manifest into a
hash-keyed map, then stream the remote manifest against it; the result is
the printed list of file names. -/
def run (localBuf remoteBuf : List Nat) : Except DecodeErr (List (List Nat)) :=
  match load_sha1s localBuf with
  | .error e => .error e
  | .ok m => compare_sha1s m remoteBuf

end compare

/-- `%ld` output never contains a NUL byte. -/
theorem intAscii_nonzero {n : Int} : ∀ b ∈ intAscii n, b ≠ 0 := by
  intro b hb
  unfold intAscii at hb
  split at hb
  · rcases List.mem_cons.mp hb with h1 | h2
    · omega
    · exact natAscii_nonzero b h2
  · exact natAscii_nonzero b hb

/-- Record well-formedness needed by the compare tool: NUL-free paths and
hashes (timestamps are not parsed there). -/
abbrev RecordsWF2 (rs : Manifest) : Prop :=
  ∀ e ∈ rs, (∀ b ∈ e.1, b ≠ 0) ∧ (∀ b ∈ e.2.hash, b ≠ 0)

namespace compare

/-- Parsing one well-formed encoded record in the compare tool. -/
theorem recordAt_encoded (pre rest p : List Nat) (fh : CFileHash)
    (hp : ∀ b ∈ p, b ≠ 0) (hh : ∀ b ∈ fh.hash, b ≠ 0) :
    recordAt (pre ++ encodeRecord p fh ++ rest) pre.length =
      .ok ((p, intAscii fh.sec ++ 46 :: intAscii fh.nsec, fh.hash),
        pre.length + (encodeRecord p fh).length) := by
  set buf := pre ++ encodeRecord p fh ++ rest with hbuf
  set A := intAscii fh.sec with hA
  set B := intAscii fh.nsec with hB
  have hd0 : buf.drop pre.length =
      p ++ 0 :: (A ++ 46 :: (B ++ 0 :: (fh.hash ++ 0 :: 10 :: rest))) := by
    rw [hbuf, List.append_assoc, List.drop_left]
    simp [encodeRecord]
  obtain ⟨eq1, hd1⟩ := get_string_field hd0 hp
  have hd1' : buf.drop (pre.length + p.length + 1) =
      (A ++ 46 :: B) ++ 0 :: (fh.hash ++ 0 :: 10 :: rest) := by
    rw [hd1]
    simp
  have hs2 : ∀ b ∈ A ++ 46 :: B, b ≠ 0 := by
    intro b hb
    rcases List.mem_append.mp hb with h1 | h2
    · exact (hA ▸ intAscii_nonzero) b h1
    · rcases List.mem_cons.mp h2 with h3 | h4
      · omega
      · exact (hB ▸ intAscii_nonzero) b h4
  obtain ⟨eq2, hd2⟩ := get_string_field hd1' hs2
  obtain ⟨eq3, hd3⟩ := get_string_field hd2 hh
  set it3 := pre.length + p.length + 1 + (A ++ 46 :: B).length + 1 + fh.hash.length + 1
    with hit3
  have hlen3 : buf.length = it3 + 1 + rest.length := by
    have := congrArg List.length hd3
    simp only [List.length_drop, List.length_cons] at this
    have hge : it3 ≤ buf.length := by
      by_contra hcon
      have hnil : buf.drop it3 = [] := List.drop_eq_nil_of_le (by omega)
      rw [hnil] at hd3
      exact absurd hd3.symm (by simp)
    omega
  have hnlt : ¬ buf.length < it3 := by omega
  have hne3 : ¬ it3 = buf.length := by omega
  have hbyte : buf.getD it3 0 = 10 := by
    have h0 : buf[it3]? = (buf.drop it3)[0]? := by
      rw [List.getElem?_drop]
    rw [hd3] at h0
    simp at h0
    simp [List.getD, h0]
  simp only [recordAt, eq1, eq2, eq3]
  simp only [ne_eq, hnlt, if_neg hnlt, hne3, hbyte]
  rw [hit3]
  simp [encodeRecord, ← hA, ← hB, List.length_append, List.length_cons]
  omega

/-- The map-building loop of the compare tool's loader over a record
list, as a fold of hash-keyed assignments. -/
def hashIndex (acc : List (List Nat × List Nat)) (rs : Manifest) :
    List (List Nat × List Nat) :=
  rs.foldl (fun a e => assocInsert a e.2.hash e.1) acc

/-- The compare loader over an encoded record list builds exactly the
hash-keyed index. -/
theorem load_loop_encoded (rs : Manifest) (hwf : RecordsWF2 rs) :
    ∀ (pre : List Nat) (acc : List (List Nat × List Nat)),
      load_loop (pre ++ encodeRecords rs) pre.length acc = .ok (hashIndex acc rs) := by
  induction rs with
  | nil =>
    intro pre acc
    rw [load_loop]
    rw [dif_neg (by simp [encodeRecords])]
    simp [hashIndex]
  | cons e rs ih =>
    intro pre acc
    obtain ⟨hp, hh⟩ := hwf e (by simp)
    have hshape : pre ++ encodeRecords (e :: rs) =
        pre ++ encodeRecord e.1 e.2 ++ encodeRecords rs := by
      simp [encodeRecords]
    have hstep := recordAt_encoded pre (encodeRecords rs) e.1 e.2 hp hh
    rw [hshape]
    rw [load_loop]
    have hcond : pre.length + 1 < (pre ++ encodeRecord e.1 e.2 ++ encodeRecords rs).length := by
      have := encodeRecord_length e.1 e.2
      simp
      omega
    rw [dif_pos hcond]
    split
    · rename_i err heq
      rw [hstep] at heq
      exact Except.noConfusion heq
    · rename_i fname time hsh it' heq
      rw [hstep] at heq
      injection heq with heq1
      injection heq1 with heq2 heq3
      simp only [Prod.mk.injEq] at heq2
      obtain ⟨h4, h5, h6⟩ := heq2
      subst h4 h6 heq3
      have ih' := ih (fun x hx => hwf x (by simp [hx])) (pre ++ encodeRecord e.1 e.2)
        (assocInsert acc e.2.hash e.1)
      rw [List.length_append] at ih'
      rw [ih']
      simp [hashIndex]

/-- The compare loop over an encoded record list collects, in order, the
paths of records whose hash misses the index. -/
theorem compare_loop_encoded (m : List (List Nat × List Nat)) (rs : Manifest)
    (hwf : RecordsWF2 rs) :
    ∀ (pre : List Nat) (out : List (List Nat)),
      compare_loop m (pre ++ encodeRecords rs) pre.length out =
        .ok (out ++ (rs.filter (fun e => assocLookup m e.2.hash = none)).map Prod.fst) := by
  induction rs with
  | nil =>
    intro pre out
    rw [compare_loop]
    rw [dif_neg (by simp [encodeRecords])]
    simp
  | cons e rs ih =>
    intro pre out
    obtain ⟨hp, hh⟩ := hwf e (by simp)
    have hshape : pre ++ encodeRecords (e :: rs) =
        pre ++ encodeRecord e.1 e.2 ++ encodeRecords rs := by
      simp [encodeRecords]
    have hstep := recordAt_encoded pre (encodeRecords rs) e.1 e.2 hp hh
    rw [hshape]
    rw [compare_loop]
    have hcond : pre.length + 1 < (pre ++ encodeRecord e.1 e.2 ++ encodeRecords rs).length := by
      have := encodeRecord_length e.1 e.2
      simp
      omega
    rw [dif_pos hcond]
    split
    · rename_i err heq
      rw [hstep] at heq
      exact Except.noConfusion heq
    · rename_i fname time hsh it' heq
      rw [hstep] at heq
      injection heq with heq1
      injection heq1 with heq2 heq3
      simp only [Prod.mk.injEq] at heq2
      obtain ⟨h4, h5, h6⟩ := heq2
      subst h4 h6 heq3
      have ih' := ih (fun x hx => hwf x (by simp [hx])) (pre ++ encodeRecord e.1 e.2)
        (if assocLookup m e.2.hash = none then out ++ [e.1] else out)
      rw [List.length_append] at ih'
      rw [ih']
      by_cases hmem : assocLookup m e.2.hash = none
      · simp [hmem]
      · simp [hmem]

/-- Lookup in the hash-keyed index takes the file name of the last record
with the looked-up hash. -/
theorem hashIndex_lookup (rs : Manifest) :
    ∀ (acc : List (List Nat × List Nat)) (k : List Nat),
      assocLookup (hashIndex acc rs) k =
        rs.foldl (fun r e => if e.2.hash = k then some e.1 else r) (assocLookup acc k) := by
  induction rs with
  | nil =>
    intro acc k
    simp [hashIndex]
  | cons e rs ih =>
    intro acc k
    have h1 : hashIndex acc (e :: rs) = hashIndex (assocInsert acc e.2.hash e.1) rs := by
      simp [hashIndex]
    rw [h1, ih, List.foldl_cons]
    congr 1
    rw [assocLookup_insert]

/-- A last-wins fold over options is `none` exactly when the seed is
`none` and no element matches. -/
theorem foldl_option_none {α β : Type} (l : List α) (p : α → Prop) [DecidablePred p]
    (f : α → β) :
    ∀ init : Option β,
      (l.foldl (fun r e => if p e then some (f e) else r) init = none) ↔
        (init = none ∧ ∀ e ∈ l, ¬ p e) := by
  induction l with
  | nil => simp
  | cons e l ih =>
    intro init
    rw [List.foldl_cons, ih]
    by_cases hp : p e
    · simp [hp]
    · simp [hp]

/-- A hash misses the index exactly when no reference record carries it. -/
theorem hashIndex_lookup_none (rs : Manifest) (k : List Nat) :
    (assocLookup (hashIndex [] rs) k = none) ↔ (∀ e ∈ rs, e.2.hash ≠ k) := by
  rw [hashIndex_lookup, foldl_option_none]
  simp [assocLookup]

end compare

/-- C3: the diff of well-formed manifests A (reference) and B (candidate)
succeeds and reports exactly the paths of B-records whose hash occurs in
no A-record; it is empty when every hash of B occurs in A; and, as a set,
it is invariant under permuting the records of either manifest. -/
theorem manifest_diff_exact (As Bs As' Bs' : Manifest)
    (hA : RecordsWF2 As) (hB : RecordsWF2 Bs)
    (hpA : As'.Perm As) (hpB : Bs'.Perm Bs) :
    ∃ out, compare.run (encodeRecords As) (encodeRecords Bs) = .ok out ∧
      out = (Bs.filter (fun e => decide (∀ a ∈ As, a.2.hash ≠ e.2.hash))).map Prod.fst ∧
      ((∀ e ∈ Bs, ∃ a ∈ As, a.2.hash = e.2.hash) → out = []) ∧
      (∃ out', compare.run (encodeRecords As') (encodeRecords Bs') = .ok out' ∧
        ∀ x, x ∈ out' ↔ x ∈ out) := by
  have hA' : RecordsWF2 As' := fun e he => hA e (hpA.subset he)
  have hB' : RecordsWF2 Bs' := fun e he => hB e (hpB.subset he)
  have hrun : ∀ (Xs Ys : Manifest), RecordsWF2 Xs → RecordsWF2 Ys →
      compare.run (encodeRecords Xs) (encodeRecords Ys) =
        .ok ((Ys.filter
          (fun e => assocLookup (compare.hashIndex [] Xs) e.2.hash = none)).map Prod.fst) := by
    intro Xs Ys hX hY
    have hload := compare.load_loop_encoded Xs hX [] []
    simp only [List.nil_append, List.length_nil] at hload
    have hcomp := compare.compare_loop_encoded (compare.hashIndex [] Xs) Ys hY [] []
    simp only [List.nil_append, List.length_nil, List.nil_append] at hcomp
    simp only [compare.run, compare.load_sha1s, hload, compare.compare_sha1s, hcomp]
  have hfc : ∀ (Xs Ys : Manifest),
      Ys.filter (fun e => assocLookup (compare.hashIndex [] Xs) e.2.hash = none) =
        Ys.filter (fun e => decide (∀ a ∈ Xs, a.2.hash ≠ e.2.hash)) := by
    intro Xs Ys
    apply List.filter_congr
    intro e _
    rw [decide_eq_decide]
    exact compare.hashIndex_lookup_none Xs e.2.hash
  refine ⟨_, hrun As Bs hA hB, ?_, ?_, ?_⟩
  · rw [hfc]
  · intro hcov
    rw [hfc]
    rw [List.map_eq_nil_iff, List.filter_eq_nil_iff]
    intro e he
    obtain ⟨a, ha, hha⟩ := hcov e he
    simp only [decide_eq_true_eq, not_forall]
    exact ⟨a, ha, fun hne => hne hha⟩
  · refine ⟨_, hrun As' Bs' hA' hB', ?_⟩
    intro x
    rw [hfc, hfc]
    have hsame : Bs'.filter (fun e => decide (∀ a ∈ As', a.2.hash ≠ e.2.hash)) =
        Bs'.filter (fun e => decide (∀ a ∈ As, a.2.hash ≠ e.2.hash)) := by
      apply List.filter_congr
      intro e _
      rw [decide_eq_decide]
      constructor
      · intro h a ha
        exact h a (hpA.mem_iff.mpr ha)
      · intro h a ha
        exact h a (hpA.mem_iff.mp ha)
    rw [hsame]
    have hperm := (hpB.filter (fun e => decide (∀ a ∈ As, a.2.hash ≠ e.2.hash))).map Prod.fst
    exact hperm.mem_iff

/-- Witness for C3 on concrete two-record manifests (identity
permutations). -/
theorem manifest_diff_exact_holds :
    ∃ out, compare.run (encodeRecords [([97], ⟨[104], 1, 2, false⟩)])
        (encodeRecords [([98], ⟨[104], 3, 4, false⟩), ([99], ⟨[105], 5, 6, false⟩)]) = .ok out ∧
      out = ([([98], (⟨[104], 3, 4, false⟩ : CFileHash)), ([99], ⟨[105], 5, 6, false⟩)].filter
        (fun e => decide (∀ a ∈ [([97], (⟨[104], 1, 2, false⟩ : CFileHash))],
          a.2.hash ≠ e.2.hash))).map Prod.fst ∧
      ((∀ e ∈ [([98], (⟨[104], 3, 4, false⟩ : CFileHash)), ([99], ⟨[105], 5, 6, false⟩)],
        ∃ a ∈ [([97], (⟨[104], 1, 2, false⟩ : CFileHash))], a.2.hash = e.2.hash) → out = []) ∧
      (∃ out', compare.run (encodeRecords [([97], ⟨[104], 1, 2, false⟩)])
          (encodeRecords [([98], ⟨[104], 3, 4, false⟩), ([99], ⟨[105], 5, 6, false⟩)]) = .ok out' ∧
        ∀ x, x ∈ out' ↔ x ∈ out) :=
  manifest_diff_exact _ _ _ _ (by decide) (by decide) (List.Perm.refl _) (List.Perm.refl _)

/-- Mark the record of `p` touched in place (`it->second.touch()`),
leaving hash and modification time unchanged. -/
def mapTouch : Manifest → List Nat → Manifest
  | [], _ => []
  | e :: rest, p =>
    if e.1 = p then (e.1, { e.2 with touched := true }) :: rest else e :: mapTouch rest p

/-- Does the stored record of `p` exist with exactly the given
modification time? (`it != sha1s.end() && it->second.modified() == sb.st_mtim`,
with `timespec` equality comparing seconds and nanoseconds.) -/
def storedMatch (sha1s : Manifest) (p : List Nat) (mt : Int × Int) : Bool :=
  match assocLookup sha1s p with
  | some fh => fh.sec == mt.1 && fh.nsec == mt.2
  | none => false

/-- `update_sha1` of `update_sha1s.C` (lines 177-221) on one regular
file.  Inputs: the ignore threshold in seconds, the reference time
`now.tv_sec` taken at startup, the per-file clock reading
`nownow.tv_sec`, the file's modification time, and the digest its
contents would hash to (`calculate_sha1`'s result, supplied as a value
since the model does no I/O).  Returns the updated map and the bool the
C function returns. -/
def update_sha1 (ignore_seconds now_sec nownow_sec : Int) (st_mtim : Int × Int)
    (content_hash : List Nat) (sha1s : Manifest) (path : List Nat) : Manifest × Bool :=
  if ignore_seconds ≠ 0 ∧ now_sec - st_mtim.1 > ignore_seconds then (sha1s, false)
  else if storedMatch sha1s path st_mtim then (mapTouch sha1s path, false)
  else if nownow_sec - st_mtim.1 < 3 then (sha1s, true)
  else (assocInsert sha1s path ⟨content_hash, st_mtim.1, st_mtim.2, true⟩, true)

/-- C8: a regular file whose stored modification time differs from its
current one (or which has no record) and whose age at the per-file clock
reading is under 3 seconds is skipped: the manifest is left completely
unchanged — nothing is hashed, touched, added or replaced — and the
result does not depend on the file's content hash. -/
theorem fresh_file_untouched (ignore_seconds now_sec nownow_sec : Int)
    (st_mtim : Int × Int) (h1 h2 : List Nat) (m : Manifest) (p : List Nat)
    (hdiff : ∀ fh, assocLookup m p = some fh → (fh.sec, fh.nsec) ≠ st_mtim)
    (hfresh : nownow_sec - st_mtim.1 < 3) :
    (update_sha1 ignore_seconds now_sec nownow_sec st_mtim h1 m p).1 = m ∧
      update_sha1 ignore_seconds now_sec nownow_sec st_mtim h1 m p =
        update_sha1 ignore_seconds now_sec nownow_sec st_mtim h2 m p := by
  have hsm : storedMatch m p st_mtim = false := by
    unfold storedMatch
    cases hl : assocLookup m p with
    | none => rfl
    | some fh =>
      have := hdiff fh hl
      simp only [Bool.and_eq_true, beq_iff_eq, Prod.mk.injEq] at *
      by_contra hc
      rw [Bool.not_eq_false, Bool.and_eq_true, beq_iff_eq, beq_iff_eq] at hc
      exact this (by rw [hc.1, hc.2])
  unfold update_sha1
  rw [hsm]
  by_cases hig : ignore_seconds ≠ 0 ∧ now_sec - st_mtim.1 > ignore_seconds
  · rw [if_pos hig, if_pos hig]
    exact ⟨rfl, rfl⟩
  · rw [if_neg hig, if_neg hig]
    simp only [Bool.false_eq_true, if_false]
    rw [if_pos hfresh, if_pos hfresh]
    exact ⟨rfl, rfl⟩

/-- Witness for C8: a one-record manifest, a mismatching fresh mtime. -/
theorem fresh_file_untouched_holds :
    (update_sha1 0 100 101 (100, 0) [104] [([97], ⟨[105], 50, 0, false⟩)] [97]).1 =
        [([97], ⟨[105], 50, 0, false⟩)] ∧
      update_sha1 0 100 101 (100, 0) [104] [([97], ⟨[105], 50, 0, false⟩)] [97] =
        update_sha1 0 100 101 (100, 0) [106] [([97], ⟨[105], 50, 0, false⟩)] [97] :=
  fresh_file_untouched 0 100 101 (100, 0) [104] [106] _ [97] (by decide) (by decide)

/-- A node of the scanned directory tree, as the walk of
`update_sha1s.C` (lines 223-278) classifies entries: `readdir`'s
`d_type`, plus — for symbolic links — the outcome of `readlink` + `stat`
on the target (lines 236-258).  A regular file (or a link resolving to
one) carries its stat modification time and the digest `calculate_sha1`
would produce from its content; a directory (or link to one) carries its
entry list; `linkDangling` is a link whose target fails to stat;
`special` is any other `d_type` (sockets, devices, ...). -/
inductive FSNode where
  | file (sec nsec : Int) (chash : List Nat)
  | dir (entries : List (List Nat × FSNode))
  | linkFile (sec nsec : Int) (chash : List Nat)
  | linkDir (entries : List (List Nat × FSNode))
  | linkSpecial
  | linkDangling
  | special

/-- The one fatal outcome of the walk modeled here: `stat` failing on a
symlink target (`error(EXIT_FAILURE, errno, "Could not stat %s")`). -/
inductive WalkErr where
  | statFail (path : List Nat)
deriving DecidableEq

/-- The literal `"./.sha1s"` of the hard-coded
`strncmp(name.c_str(), "./.sha1s", 8)` skip check (line 234). -/
def dotSha1s : List Nat := [46, 47, 46, 115, 104, 97, 49, 115]

/-- The entry loop of `update_sha1s` (lines 231-272) over the entries of
one directory: build `path/name`, skip anything whose full path starts
with the literal `./.sha1s`, resolve links, recurse into directories
(skipping `.` and `..`), call `update_sha1` on regular files, and OR
together the per-entry results. -/
def walkEntries (ign now2 nn : Int) :
    List (List Nat × FSNode) → List Nat → Manifest → Except WalkErr (Manifest × Bool)
  | [], _, m => .ok (m, false)
  | (nm, nd) :: rest, path, m =>
    let full := path ++ [47] ++ nm
    if dotSha1s.isPrefixOf full then walkEntries ign now2 nn rest path m
    else
      match nd with
      | .linkDangling => .error (.statFail full)
      | .linkSpecial => walkEntries ign now2 nn rest path m
      | .special => walkEntries ign now2 nn rest path m
      | .dir es =>
        if nm = [46] ∨ nm = [46, 46] then walkEntries ign now2 nn rest path m
        else
          match walkEntries ign now2 nn es full m with
          | .error e => .error e
          | .ok (m1, r1) =>
            match walkEntries ign now2 nn rest path m1 with
            | .error e => .error e
            | .ok (m2, r2) => .ok (m2, r2 || r1)
      | .linkDir es =>
        if nm = [46] ∨ nm = [46, 46] then walkEntries ign now2 nn rest path m
        else
          match walkEntries ign now2 nn es full m with
          | .error e => .error e
          | .ok (m1, r1) =>
            match walkEntries ign now2 nn rest path m1 with
            | .error e => .error e
            | .ok (m2, r2) => .ok (m2, r2 || r1)
      | .file s n ch =>
        match update_sha1 ign now2 nn (s, n) ch m full with
        | (m1, r1) =>
          match walkEntries ign now2 nn rest path m1 with
          | .error e => .error e
          | .ok (m2, r2) => .ok (m2, r2 || r1)
      | .linkFile s n ch =>
        match update_sha1 ign now2 nn (s, n) ch m full with
        | (m1, r1) =>
          match walkEntries ign now2 nn rest path m1 with
          | .error e => .error e
          | .ok (m2, r2) => .ok (m2, r2 || r1)
termination_by l _ _ => sizeOf l

/-- `update_sha1s(sha1s)` as `main` calls it: the walk rooted at `"."`. -/
def update_sha1s (ign now2 nn : Int) (root : List (List Nat × FSNode)) (m : Manifest) :
    Except WalkErr (Manifest × Bool) :=
  walkEntries ign now2 nn root [46] m

/-- Should the prune loop of `main` (lines 331-349) erase this record?
Remove-missing drops untouched records; an ignore threshold additionally
drops expired records. -/
def pruneRemove (remove_missing : Bool) (ign now2 : Int) (e : List Nat × CFileHash) : Bool :=
  (remove_missing && !e.2.touched) || (ign != 0 && decide (now2 - e.2.sec > ign))

/-- The prune loop of `main`: runs only when `-c` or `-i` is active;
returns the surviving records and whether anything was erased. -/
def prune (remove_missing : Bool) (ign now2 : Int) (m : Manifest) : Manifest × Bool :=
  if remove_missing || ign != 0 then
    (m.filter (fun e => !pruneRemove remove_missing ign now2 e),
      m.any (pruneRemove remove_missing ign now2))
  else (m, false)

/-- `main`'s decision to rewrite the manifest file: the scan reported an
update, or the prune loop erased something. -/
def need_to_write (scanUpd : Bool) (remove_missing : Bool) (ign now2 : Int) (m : Manifest) :
    Bool :=
  scanUpd || (prune remove_missing ign now2 m).2

/-- C6 counterexample: the skip check compares the full entry path
against the hard-coded 8-byte literal `./.sha1s`, not against the
configured manifest filename.  In a subdirectory `sub`, an entry named
`.sha1s` has full path `./sub/.sha1s`, the prefix test fails, and the
default-named manifest file inside `sub` is hashed and recorded — the
claim says it is skipped in every directory visited. -/
theorem subdir_sha1s_recorded :
    update_sha1s 0 200 200
        [([115, 117, 98], .dir [([46, 115, 104, 97, 49, 115], .file 100 0 [104])])] [] =
      .ok ([([46, 47, 115, 117, 98, 47, 46, 115, 104, 97, 49, 115], ⟨[104], 100, 0, true⟩)],
        true) := by
  simp [update_sha1s, walkEntries, update_sha1, storedMatch, assocLookup, assocInsert,
    dotSha1s]

/-- C6 amended: the walk skips exactly those entries whose full path
(rooted at `.`) begins with the literal byte string `./.sha1s` — at the
top level this covers the default manifest `.sha1s`, its temporary
`.sha1s.tmp`, and any other name starting with `.sha1s`; the `-f`
configured filename is never consulted, and manifest files in
subdirectories are not skipped. -/
theorem walk_skips_dotSha1s (ign now2 nn : Int) (nm : List Nat) (nd : FSNode)
    (rest : List (List Nat × FSNode)) (path : List Nat) (m : Manifest)
    (h : dotSha1s.isPrefixOf (path ++ [47] ++ nm) = true) :
    walkEntries ign now2 nn ((nm, nd) :: rest) path m =
      walkEntries ign now2 nn rest path m := by
  rw [walkEntries.eq_def]
  simp [h]
  intro hc
  simp at h
  exact absurd h hc

/-- Witness for the amended C6: the default manifest name and its
temporary counterpart are both skipped at the top level. -/
theorem walk_skips_dotSha1s_holds :
    walkEntries 0 0 10 [([46, 115, 104, 97, 49, 115], .file 5 0 [104])] [46] [] =
        walkEntries 0 0 10 [] [46] [] ∧
      walkEntries 0 0 10 [([46, 115, 104, 97, 49, 115, 46, 116, 109, 112],
          .file 5 0 [104])] [46] [] =
        walkEntries 0 0 10 [] [46] [] :=
  ⟨walk_skips_dotSha1s 0 0 10 [46, 115, 104, 97, 49, 115] (.file 5 0 [104]) [] [46] []
      (by decide),
    walk_skips_dotSha1s 0 0 10 [46, 115, 104, 97, 49, 115, 46, 116, 109, 112]
      (.file 5 0 [104]) [] [46] [] (by decide)⟩

/-- C7 counterexample: a dangling symbolic link (its target fails to
stat) aborts the whole invocation via
`error(EXIT_FAILURE, errno, "Could not stat %s")` — the claim says it is
skipped with a diagnostic and the scan continues. -/
theorem dangling_link_aborts :
    update_sha1s 0 0 10 [([108], .linkDangling)] [] = .error (.statFail [46, 47, 108]) := by
  rw [update_sha1s, walkEntries]
  simp only [show dotSha1s.isPrefixOf ([46] ++ [47] ++ [108]) = false by decide,
    Bool.false_eq_true, if_false]
  rfl

/-- C7 amended: a symbolic link resolving to something that is neither a
directory nor a regular file is skipped with a diagnostic and the scan
continues with the remaining entries; but a dangling link (failed stat
of the target) aborts the invocation fatally. -/
theorem link_classification (ign now2 nn : Int) (nm : List Nat)
    (rest : List (List Nat × FSNode)) (path : List Nat) (m : Manifest) :
    walkEntries ign now2 nn ((nm, .linkSpecial) :: rest) path m =
        walkEntries ign now2 nn rest path m ∧
      (dotSha1s.isPrefixOf (path ++ [47] ++ nm) = false →
        walkEntries ign now2 nn ((nm, .linkDangling) :: rest) path m =
          .error (.statFail (path ++ [47] ++ nm))) := by
  constructor
  · rw [walkEntries]
    by_cases h : dotSha1s.isPrefixOf (path ++ [47] ++ nm) = true
    · simp only [h, if_true]
    · simp only [Bool.not_eq_true] at h
      simp only [h, Bool.false_eq_true, if_false]
  · intro h
    rw [walkEntries]
    simp only [h, Bool.false_eq_true, if_false]

/-- Witness for the amended C7 on a concrete special link and a concrete
dangling link. -/
theorem link_classification_holds :
    walkEntries 0 0 10 [([109], .linkSpecial)] [46] [] = walkEntries 0 0 10 [] [46] [] ∧
      walkEntries 0 0 10 [([109], .linkDangling)] [46] [] =
        .error (.statFail [46, 47, 109]) :=
  ⟨(link_classification 0 0 10 [109] [] [46] []).1,
    (link_classification 0 0 10 [109] [] [46] []).2 (by decide)⟩

/-- The persistent part of a record: hash and modification time, without
the transient `touched` flag. -/
def coreOf (fh : CFileHash) : List Nat × Int × Int := (fh.hash, fh.sec, fh.nsec)

/-- Two manifests agree on every lookup up to the `touched` flag: no
record was added, removed, or changed in hash or time. -/
def SameCore (m m' : Manifest) : Prop :=
  ∀ p, (assocLookup m p).map coreOf = (assocLookup m' p).map coreOf

theorem sameCore_refl (m : Manifest) : SameCore m m := fun _ => rfl

theorem sameCore_trans {a b c : Manifest} (h1 : SameCore a b) (h2 : SameCore b c) :
    SameCore a c := fun p => (h1 p).trans (h2 p)

/-- The stored-time check only reads core fields, so it is invariant
across touch-only changes. -/
theorem storedMatch_congr {m m' : Manifest} (h : SameCore m m') (p : List Nat)
    (mt : Int × Int) : storedMatch m p mt = storedMatch m' p mt := by
  unfold storedMatch
  have hp := h p
  cases h1 : assocLookup m p with
  | none =>
    cases h2 : assocLookup m' p with
    | none => rfl
    | some fh =>
      rw [h1, h2] at hp
      simp [coreOf] at hp
  | some fh =>
    cases h2 : assocLookup m' p with
    | none =>
      rw [h1, h2] at hp
      simp [coreOf] at hp
    | some fh' =>
      rw [h1, h2] at hp
      simp [coreOf] at hp
      simp [hp.2.1, hp.2.2]

/-- Lookup through an in-place touch. -/
theorem assocLookup_mapTouch (m : Manifest) (p q : List Nat) :
    assocLookup (mapTouch m p) q =
      if p = q then (assocLookup m p).map (fun fh => { fh with touched := true })
      else assocLookup m q := by
  induction m with
  | nil => by_cases h : p = q <;> simp [mapTouch, assocLookup, h]
  | cons e rest ih =>
    by_cases hep : e.1 = p
    · by_cases hq : p = q
      · simp [mapTouch, assocLookup, hep, hq]
      · have hne : ¬ e.1 = q := by rw [hep]; exact hq
        simp [mapTouch, assocLookup, hep, hq, hne]
    · by_cases heq : e.1 = q
      · have hnpq : ¬ p = q := fun hc => hep (by rw [hc, heq])
        have hqp : ¬ q = p := fun hc => hep (heq.trans hc)
        simp [mapTouch, assocLookup, hep, heq, hnpq, hqp]
      · simp [mapTouch, assocLookup, hep, heq, ih]

/-- Touching a record never changes any core field. -/
theorem mapTouch_sameCore (m : Manifest) (p : List Nat) : SameCore m (mapTouch m p) := by
  intro q
  rw [assocLookup_mapTouch]
  by_cases h : p = q
  · rw [if_pos h, h]
    cases assocLookup m q <;> simp [coreOf]
  · rw [if_neg h]

/-- A visit that returns `false` (timestamp match or ignore skip) leaves
every core field of the manifest unchanged. -/
theorem update_false_sameCore {ign now2 nn : Int} {mt : Int × Int} {ch : List Nat}
    {m m' : Manifest} {p : List Nat}
    (h : update_sha1 ign now2 nn mt ch m p = (m', false)) : SameCore m m' := by
  unfold update_sha1 at h
  split at h
  · injection h with h1 _
    rw [← h1]
    exact sameCore_refl m
  · split at h
    · injection h with h1 _
      rw [← h1]
      exact mapTouch_sameCore m p
    · split at h
      · injection h with _ h2
        exact absurd h2 (by simp)
      · injection h with _ h2
        exact absurd h2 (by simp)

/-- A calm visit — the file is ignore-skipped or its stored time matches —
returns `false` and changes no core field. -/
theorem update_calm {ign now2 : Int} (nn : Int) {s n : Int} (ch : List Nat)
    {m : Manifest} {full : List Nat}
    (h : ((ign != 0 && decide (now2 - s > ign)) || storedMatch m full (s, n)) = true) :
    ∃ m', update_sha1 ign now2 nn (s, n) ch m full = (m', false) ∧ SameCore m m' := by
  unfold update_sha1
  by_cases hig : ign ≠ 0 ∧ now2 - (s, n).1 > ign
  · rw [if_pos hig]
    exact ⟨m, rfl, sameCore_refl m⟩
  · rw [if_neg hig]
    have hsm : storedMatch m full (s, n) = true := by
      by_cases h1 : (ign != 0 && decide (now2 - s > ign)) = true
      · exfalso
        rw [Bool.and_eq_true, bne_iff_ne, decide_eq_true_eq] at h1
        exact hig ⟨h1.1, h1.2⟩
      · rw [Bool.not_eq_true] at h1
        rw [h1, Bool.false_or] at h
        exact h
    rw [hsm]
    exact ⟨mapTouch m full, by simp, mapTouch_sameCore m full⟩

/-- A "calm" pass over a tree relative to manifest `m`: every entry that
the walk would visit is either skipped by the `./.sha1s` prefix check, a
skipped special entry, a `.`/`..` directory, a directory whose own
entries are calm, or a regular file (or link to one) that the visit
leaves alone because the ignore threshold skips it or its stored
modification time matches; no dangling links occur. -/
def calmEntries (ign now2 : Int) (m : Manifest) :
    List (List Nat × FSNode) → List Nat → Bool
  | [], _ => true
  | (nm, nd) :: rest, path =>
    let full := path ++ [47] ++ nm
    (if dotSha1s.isPrefixOf full then true
     else
       match nd with
       | .file s n _ => (ign != 0 && decide (now2 - s > ign)) || storedMatch m full (s, n)
       | .linkFile s n _ => (ign != 0 && decide (now2 - s > ign)) || storedMatch m full (s, n)
       | .dir es => if nm = [46] ∨ nm = [46, 46] then true else calmEntries ign now2 m es full
       | .linkDir es =>
         if nm = [46] ∨ nm = [46, 46] then true else calmEntries ign now2 m es full
       | .linkSpecial => true
       | .special => true
       | .linkDangling => false)
    && calmEntries ign now2 m rest path
termination_by l _ => sizeOf l

/-- One-step unfolding: an empty directory contributes nothing. -/
theorem walkEntries_nil (ign now2 nn : Int) (path : List Nat) (m : Manifest) :
    walkEntries ign now2 nn [] path m = .ok (m, false) := by
  rw [walkEntries]

/-- One-step unfolding: a `special` entry is skipped. -/
theorem walkEntries_special (ign now2 nn : Int) (nm : List Nat)
    (rest : List (List Nat × FSNode)) (path : List Nat) (m : Manifest) :
    walkEntries ign now2 nn ((nm, .special) :: rest) path m =
      walkEntries ign now2 nn rest path m := by
  rw [walkEntries.eq_def]
  by_cases h : dotSha1s.isPrefixOf (path ++ [47] ++ nm) = true <;> simp [h]

/-- One-step unfolding: a link to a special target is skipped. -/
theorem walkEntries_linkSpecial (ign now2 nn : Int) (nm : List Nat)
    (rest : List (List Nat × FSNode)) (path : List Nat) (m : Manifest) :
    walkEntries ign now2 nn ((nm, .linkSpecial) :: rest) path m =
      walkEntries ign now2 nn rest path m := by
  rw [walkEntries.eq_def]
  by_cases h : dotSha1s.isPrefixOf (path ++ [47] ++ nm) = true <;> simp [h]

/-- One-step unfolding: a dangling link aborts (when not prefix-skipped). -/
theorem walkEntries_dangling (ign now2 nn : Int) (nm : List Nat)
    (rest : List (List Nat × FSNode)) (path : List Nat) (m : Manifest)
    (hpre : dotSha1s.isPrefixOf (path ++ [47] ++ nm) = false) :
    walkEntries ign now2 nn ((nm, .linkDangling) :: rest) path m =
      .error (.statFail (path ++ [47] ++ nm)) := by
  rw [walkEntries.eq_def]
  simp [hpre]
  intro hc
  rw [← List.isPrefixOf_iff_prefix] at hc
  simp [List.append_assoc] at hpre
  exact absurd hc (by simp [hpre])

/-- One-step unfolding: the `.` and `..` directory entries are skipped. -/
theorem walkEntries_dir_dot (ign now2 nn : Int) (nm : List Nat)
    (es rest : List (List Nat × FSNode)) (path : List Nat) (m : Manifest)
    (hdot : nm = [46] ∨ nm = [46, 46]) :
    walkEntries ign now2 nn ((nm, .dir es) :: rest) path m =
      walkEntries ign now2 nn rest path m := by
  rw [walkEntries.eq_def]
  by_cases h : dotSha1s.isPrefixOf (path ++ [47] ++ nm) = true <;> simp [h, hdot]

/-- One-step unfolding: `.`/`..` link-to-directory entries are skipped. -/
theorem walkEntries_linkDir_dot (ign now2 nn : Int) (nm : List Nat)
    (es rest : List (List Nat × FSNode)) (path : List Nat) (m : Manifest)
    (hdot : nm = [46] ∨ nm = [46, 46]) :
    walkEntries ign now2 nn ((nm, .linkDir es) :: rest) path m =
      walkEntries ign now2 nn rest path m := by
  rw [walkEntries.eq_def]
  by_cases h : dotSha1s.isPrefixOf (path ++ [47] ++ nm) = true <;> simp [h, hdot]

/-- One-step unfolding: recursing into a subdirectory, then the rest. -/
theorem walkEntries_dir (ign now2 nn : Int) (nm : List Nat)
    (es rest : List (List Nat × FSNode)) (path : List Nat) (m : Manifest)
    (hpre : dotSha1s.isPrefixOf (path ++ [47] ++ nm) = false)
    (hdot : ¬ (nm = [46] ∨ nm = [46, 46])) :
    walkEntries ign now2 nn ((nm, .dir es) :: rest) path m =
      (match walkEntries ign now2 nn es (path ++ [47] ++ nm) m with
       | .error e => .error e
       | .ok (m1, r1) =>
         match walkEntries ign now2 nn rest path m1 with
         | .error e => .error e
         | .ok (m2, r2) => .ok (m2, r2 || r1)) := by
  rw [walkEntries.eq_def]
  simp [hpre, hdot]
  intro hc
  rw [← List.isPrefixOf_iff_prefix] at hc
  simp [List.append_assoc] at hpre
  exact absurd hc (by simp [hpre])

/-- One-step unfolding: a link to a directory is recursed into. -/
theorem walkEntries_linkDir (ign now2 nn : Int) (nm : List Nat)
    (es rest : List (List Nat × FSNode)) (path : List Nat) (m : Manifest)
    (hpre : dotSha1s.isPrefixOf (path ++ [47] ++ nm) = false)
    (hdot : ¬ (nm = [46] ∨ nm = [46, 46])) :
    walkEntries ign now2 nn ((nm, .linkDir es) :: rest) path m =
      (match walkEntries ign now2 nn es (path ++ [47] ++ nm) m with
       | .error e => .error e
       | .ok (m1, r1) =>
         match walkEntries ign now2 nn rest path m1 with
         | .error e => .error e
         | .ok (m2, r2) => .ok (m2, r2 || r1)) := by
  rw [walkEntries.eq_def]
  simp [hpre, hdot]
  intro hc
  rw [← List.isPrefixOf_iff_prefix] at hc
  simp [List.append_assoc] at hpre
  exact absurd hc (by simp [hpre])

/-- One-step unfolding: any entry whose full path starts with `./.sha1s`
is skipped regardless of its kind. -/
theorem walkEntries_skip (ign now2 nn : Int) (nm : List Nat) (nd : FSNode)
    (rest : List (List Nat × FSNode)) (path : List Nat) (m : Manifest)
    (hpre : dotSha1s.isPrefixOf (path ++ [47] ++ nm) = true) :
    walkEntries ign now2 nn ((nm, nd) :: rest) path m =
      walkEntries ign now2 nn rest path m := by
  rw [walkEntries.eq_def]
  simp [hpre]
  intro hc
  exact absurd (by simpa using hpre) hc

/-- One-step unfolding: visiting a regular file, then the rest. -/
theorem walkEntries_file (ign now2 nn : Int) (nm : List Nat) (s n : Int) (ch : List Nat)
    (rest : List (List Nat × FSNode)) (path : List Nat) (m : Manifest)
    (hpre : dotSha1s.isPrefixOf (path ++ [47] ++ nm) = false) :
    walkEntries ign now2 nn ((nm, .file s n ch) :: rest) path m =
      (match walkEntries ign now2 nn rest path
          (update_sha1 ign now2 nn (s, n) ch m (path ++ [47] ++ nm)).1 with
       | .error e => .error e
       | .ok (m2, r2) =>
         .ok (m2, r2 || (update_sha1 ign now2 nn (s, n) ch m (path ++ [47] ++ nm)).2)) := by
  rw [walkEntries.eq_def]
  simp [hpre]
  intro hc
  rw [← List.isPrefixOf_iff_prefix] at hc
  simp [List.append_assoc] at hpre
  exact absurd hc (by simp [hpre])

/-- One-step unfolding: a link to a regular file is visited as a file. -/
theorem walkEntries_linkFile (ign now2 nn : Int) (nm : List Nat) (s n : Int) (ch : List Nat)
    (rest : List (List Nat × FSNode)) (path : List Nat) (m : Manifest)
    (hpre : dotSha1s.isPrefixOf (path ++ [47] ++ nm) = false) :
    walkEntries ign now2 nn ((nm, .linkFile s n ch) :: rest) path m =
      (match walkEntries ign now2 nn rest path
          (update_sha1 ign now2 nn (s, n) ch m (path ++ [47] ++ nm)).1 with
       | .error e => .error e
       | .ok (m2, r2) =>
         .ok (m2, r2 || (update_sha1 ign now2 nn (s, n) ch m (path ++ [47] ++ nm)).2)) := by
  rw [walkEntries.eq_def]
  simp [hpre]
  intro hc
  rw [← List.isPrefixOf_iff_prefix] at hc
  simp [List.append_assoc] at hpre
  exact absurd hc (by simp [hpre])

/-- A walk that reports no update leaves every core field of the
manifest unchanged (no record added, removed, or changed — only
`touched` flags may differ). -/
theorem walk_false_sameCore (ign now2 nn : Int) (entries : List (List Nat × FSNode))
    (path : List Nat) (m : Manifest) :
    ∀ m', walkEntries ign now2 nn entries path m = .ok (m', false) → SameCore m m' := by
  induction entries, path, m using walkEntries.induct ign now2 nn
  all_goals intro m' hw
  case case1 =>
    rw [walkEntries_nil] at hw
    injection hw with hw1
    injection hw1 with hw2 _
    subst hw2
    exact sameCore_refl _
  case case2 =>
    rename_i nm nd rest path m full hpre ih1
    rw [walkEntries_skip ign now2 nn nm nd rest path m hpre] at hw
    exact ih1 m' hw
  case case3 =>
    rename_i nm rest path m full hpre
    have hpre' : dotSha1s.isPrefixOf (path ++ [47] ++ nm) = false := by
      rw [← Bool.not_eq_true]
      exact hpre
    rw [walkEntries_dangling ign now2 nn nm rest path m hpre'] at hw
    exact Except.noConfusion hw
  case case4 =>
    rename_i nm rest path m full hpre ih1
    rw [walkEntries_linkSpecial] at hw
    exact ih1 m' hw
  case case5 =>
    rename_i nm rest path m full hpre ih1
    rw [walkEntries_special] at hw
    exact ih1 m' hw
  case case6 =>
    rename_i nm rest path m full hpre es hdot ih1
    rw [walkEntries_dir_dot ign now2 nn nm es rest path m hdot] at hw
    exact ih1 m' hw
  case case7 =>
    rename_i nm rest path m full hpre es hdot e xw ih1
    have hpre' : dotSha1s.isPrefixOf (path ++ [47] ++ nm) = false := by
      rw [← Bool.not_eq_true]
      exact hpre
    rw [walkEntries_dir ign now2 nn nm es rest path m hpre' hdot] at hw
    have xw' : walkEntries ign now2 nn es (path ++ [47] ++ nm) m = .error e := xw
    simp only [xw'] at hw
    exact Except.noConfusion hw
  case case8 =>
    rename_i nm rest path m full hpre es hdot m2 r2 x1 e xw ih2 ih1
    have hpre' : dotSha1s.isPrefixOf (path ++ [47] ++ nm) = false := by
      rw [← Bool.not_eq_true]
      exact hpre
    rw [walkEntries_dir ign now2 nn nm es rest path m hpre' hdot] at hw
    have x1' : walkEntries ign now2 nn es (path ++ [47] ++ nm) m = .ok (m2, r2) := x1
    simp only [x1', xw] at hw
    exact Except.noConfusion hw
  case case9 =>
    rename_i nm rest path m full hpre es hdot m21 r21 x1 m2 r2 xw ih2 ih1
    have hpre' : dotSha1s.isPrefixOf (path ++ [47] ++ nm) = false := by
      rw [← Bool.not_eq_true]
      exact hpre
    rw [walkEntries_dir ign now2 nn nm es rest path m hpre' hdot] at hw
    have x1' : walkEntries ign now2 nn es (path ++ [47] ++ nm) m = .ok (m21, r21) := x1
    simp only [x1', xw] at hw
    injection hw with hw1
    injection hw1 with hm hr
    simp at hr
    have x1f : walkEntries ign now2 nn es (path ++ [47] ++ nm) m = .ok (m21, false) := by
      rw [x1', hr.2]
    have xwf : walkEntries ign now2 nn rest path m21 = .ok (m2, false) := by
      rw [xw, hr.1]
    exact hm ▸ sameCore_trans (ih2 m21 x1f) (ih1 m2 xwf)
  case case10 =>
    rename_i nm rest path m full hpre es hdot ih1
    rw [walkEntries_linkDir_dot ign now2 nn nm es rest path m hdot] at hw
    exact ih1 m' hw
  case case11 =>
    rename_i nm rest path m full hpre es hdot e xw ih1
    have hpre' : dotSha1s.isPrefixOf (path ++ [47] ++ nm) = false := by
      rw [← Bool.not_eq_true]
      exact hpre
    rw [walkEntries_linkDir ign now2 nn nm es rest path m hpre' hdot] at hw
    have xw' : walkEntries ign now2 nn es (path ++ [47] ++ nm) m = .error e := xw
    simp only [xw'] at hw
    exact Except.noConfusion hw
  case case12 =>
    rename_i nm rest path m full hpre es hdot m2 r2 x1 e xw ih2 ih1
    have hpre' : dotSha1s.isPrefixOf (path ++ [47] ++ nm) = false := by
      rw [← Bool.not_eq_true]
      exact hpre
    rw [walkEntries_linkDir ign now2 nn nm es rest path m hpre' hdot] at hw
    have x1' : walkEntries ign now2 nn es (path ++ [47] ++ nm) m = .ok (m2, r2) := x1
    simp only [x1', xw] at hw
    exact Except.noConfusion hw
  case case13 =>
    rename_i nm rest path m full hpre es hdot m21 r21 x1 m2 r2 xw ih2 ih1
    have hpre' : dotSha1s.isPrefixOf (path ++ [47] ++ nm) = false := by
      rw [← Bool.not_eq_true]
      exact hpre
    rw [walkEntries_linkDir ign now2 nn nm es rest path m hpre' hdot] at hw
    have x1' : walkEntries ign now2 nn es (path ++ [47] ++ nm) m = .ok (m21, r21) := x1
    simp only [x1', xw] at hw
    injection hw with hw1
    injection hw1 with hm hr
    simp at hr
    have x1f : walkEntries ign now2 nn es (path ++ [47] ++ nm) m = .ok (m21, false) := by
      rw [x1', hr.2]
    have xwf : walkEntries ign now2 nn rest path m21 = .ok (m2, false) := by
      rw [xw, hr.1]
    exact hm ▸ sameCore_trans (ih2 m21 x1f) (ih1 m2 xwf)
  case case14 =>
    rename_i nm rest path m full hpre s n ch m1 r1 x1 e xw ih1
    have hpre' : dotSha1s.isPrefixOf (path ++ [47] ++ nm) = false := by
      rw [← Bool.not_eq_true]
      exact hpre
    rw [walkEntries_file ign now2 nn nm s n ch rest path m hpre'] at hw
    have x1' : update_sha1 ign now2 nn (s, n) ch m (path ++ [47] ++ nm) = (m1, r1) := x1
    simp only [x1', xw] at hw
    exact Except.noConfusion hw
  case case15 =>
    rename_i nm rest path m full hpre s n ch m1 r1 x1 m2 r2 xw ih1
    have hpre' : dotSha1s.isPrefixOf (path ++ [47] ++ nm) = false := by
      rw [← Bool.not_eq_true]
      exact hpre
    rw [walkEntries_file ign now2 nn nm s n ch rest path m hpre'] at hw
    have x1' : update_sha1 ign now2 nn (s, n) ch m (path ++ [47] ++ nm) = (m1, r1) := x1
    simp only [x1', xw] at hw
    injection hw with hw1
    injection hw1 with hm hr
    simp at hr
    have x1f : update_sha1 ign now2 nn (s, n) ch m (path ++ [47] ++ nm) = (m1, false) := by
      rw [x1', hr.2]
    have xwf : walkEntries ign now2 nn rest path m1 = .ok (m2, false) := by
      rw [xw, hr.1]
    exact hm ▸ sameCore_trans (update_false_sameCore x1f) (ih1 m2 xwf)
  case case16 =>
    rename_i nm rest path m full hpre s n ch m1 r1 x1 e xw ih1
    have hpre' : dotSha1s.isPrefixOf (path ++ [47] ++ nm) = false := by
      rw [← Bool.not_eq_true]
      exact hpre
    rw [walkEntries_linkFile ign now2 nn nm s n ch rest path m hpre'] at hw
    have x1' : update_sha1 ign now2 nn (s, n) ch m (path ++ [47] ++ nm) = (m1, r1) := x1
    simp only [x1', xw] at hw
    exact Except.noConfusion hw
  case case17 =>
    rename_i nm rest path m full hpre s n ch m1 r1 x1 m2 r2 xw ih1
    have hpre' : dotSha1s.isPrefixOf (path ++ [47] ++ nm) = false := by
      rw [← Bool.not_eq_true]
      exact hpre
    rw [walkEntries_linkFile ign now2 nn nm s n ch rest path m hpre'] at hw
    have x1' : update_sha1 ign now2 nn (s, n) ch m (path ++ [47] ++ nm) = (m1, r1) := x1
    simp only [x1', xw] at hw
    injection hw with hw1
    injection hw1 with hm hr
    simp at hr
    have x1f : update_sha1 ign now2 nn (s, n) ch m (path ++ [47] ++ nm) = (m1, false) := by
      rw [x1', hr.2]
    have xwf : walkEntries ign now2 nn rest path m1 = .ok (m2, false) := by
      rw [xw, hr.1]
    exact hm ▸ sameCore_trans (update_false_sameCore x1f) (ih1 m2 xwf)

/-- Calm unfolding: empty entry list. -/
theorem calmEntries_nil (ign now2 : Int) (m0 : Manifest) (path : List Nat) :
    calmEntries ign now2 m0 [] path = true := by
  rw [calmEntries]

/-- Calm unfolding: a prefix-skipped entry. -/
theorem calmEntries_skip (ign now2 : Int) (m0 : Manifest) (nm : List Nat) (nd : FSNode)
    (rest : List (List Nat × FSNode)) (path : List Nat)
    (hpre : dotSha1s.isPrefixOf (path ++ [47] ++ nm) = true) :
    calmEntries ign now2 m0 ((nm, nd) :: rest) path = calmEntries ign now2 m0 rest path := by
  rw [calmEntries.eq_def]
  have hP : dotSha1s <+: path ++ 47 :: nm := by
    rw [← List.isPrefixOf_iff_prefix]
    rw [show path ++ 47 :: nm = path ++ [47] ++ nm by simp]
    exact hpre
  simp [hP]

/-- Calm unfolding: a `special` entry. -/
theorem calmEntries_special (ign now2 : Int) (m0 : Manifest) (nm : List Nat)
    (rest : List (List Nat × FSNode)) (path : List Nat) :
    calmEntries ign now2 m0 ((nm, .special) :: rest) path =
      calmEntries ign now2 m0 rest path := by
  rw [calmEntries.eq_def]
  by_cases h : dotSha1s.isPrefixOf (path ++ [47] ++ nm) = true <;> simp [h]

/-- Calm unfolding: a link to a special target. -/
theorem calmEntries_linkSpecial (ign now2 : Int) (m0 : Manifest) (nm : List Nat)
    (rest : List (List Nat × FSNode)) (path : List Nat) :
    calmEntries ign now2 m0 ((nm, .linkSpecial) :: rest) path =
      calmEntries ign now2 m0 rest path := by
  rw [calmEntries.eq_def]
  by_cases h : dotSha1s.isPrefixOf (path ++ [47] ++ nm) = true <;> simp [h]

/-- Calm unfolding: a dangling link is never calm (when not skipped). -/
theorem calmEntries_dangling (ign now2 : Int) (m0 : Manifest) (nm : List Nat)
    (rest : List (List Nat × FSNode)) (path : List Nat)
    (hpre : dotSha1s.isPrefixOf (path ++ [47] ++ nm) = false) :
    calmEntries ign now2 m0 ((nm, .linkDangling) :: rest) path = false := by
  rw [calmEntries.eq_def]
  have hP : ¬ dotSha1s <+: path ++ 47 :: nm := by
    rw [← List.isPrefixOf_iff_prefix]
    intro hc
    rw [show path ++ 47 :: nm = path ++ [47] ++ nm by simp] at hc
    rw [hpre] at hc
    exact Bool.noConfusion hc
  simp [hP]

/-- Calm unfolding: `.` and `..` entries. -/
theorem calmEntries_dir_dot (ign now2 : Int) (m0 : Manifest) (nm : List Nat)
    (es rest : List (List Nat × FSNode)) (path : List Nat)
    (hdot : nm = [46] ∨ nm = [46, 46]) :
    calmEntries ign now2 m0 ((nm, .dir es) :: rest) path =
      calmEntries ign now2 m0 rest path := by
  rw [calmEntries.eq_def]
  by_cases h : dotSha1s.isPrefixOf (path ++ [47] ++ nm) = true <;> simp [h, hdot]

/-- Calm unfolding: `.`/`..` link-to-directory entries. -/
theorem calmEntries_linkDir_dot (ign now2 : Int) (m0 : Manifest) (nm : List Nat)
    (es rest : List (List Nat × FSNode)) (path : List Nat)
    (hdot : nm = [46] ∨ nm = [46, 46]) :
    calmEntries ign now2 m0 ((nm, .linkDir es) :: rest) path =
      calmEntries ign now2 m0 rest path := by
  rw [calmEntries.eq_def]
  by_cases h : dotSha1s.isPrefixOf (path ++ [47] ++ nm) = true <;> simp [h, hdot]

/-- Calm unfolding: a subdirectory entry. -/
theorem calmEntries_dir (ign now2 : Int) (m0 : Manifest) (nm : List Nat)
    (es rest : List (List Nat × FSNode)) (path : List Nat)
    (hpre : dotSha1s.isPrefixOf (path ++ [47] ++ nm) = false)
    (hdot : ¬ (nm = [46] ∨ nm = [46, 46])) :
    calmEntries ign now2 m0 ((nm, .dir es) :: rest) path =
      (calmEntries ign now2 m0 es (path ++ [47] ++ nm) &&
        calmEntries ign now2 m0 rest path) := by
  rw [calmEntries.eq_def]
  have hP : ¬ dotSha1s <+: path ++ 47 :: nm := by
    rw [← List.isPrefixOf_iff_prefix]
    intro hc
    rw [show path ++ 47 :: nm = path ++ [47] ++ nm by simp] at hc
    rw [hpre] at hc
    exact Bool.noConfusion hc
  simp [hP, hdot]

/-- Calm unfolding: a link-to-directory entry. -/
theorem calmEntries_linkDir (ign now2 : Int) (m0 : Manifest) (nm : List Nat)
    (es rest : List (List Nat × FSNode)) (path : List Nat)
    (hpre : dotSha1s.isPrefixOf (path ++ [47] ++ nm) = false)
    (hdot : ¬ (nm = [46] ∨ nm = [46, 46])) :
    calmEntries ign now2 m0 ((nm, .linkDir es) :: rest) path =
      (calmEntries ign now2 m0 es (path ++ [47] ++ nm) &&
        calmEntries ign now2 m0 rest path) := by
  rw [calmEntries.eq_def]
  have hP : ¬ dotSha1s <+: path ++ 47 :: nm := by
    rw [← List.isPrefixOf_iff_prefix]
    intro hc
    rw [show path ++ 47 :: nm = path ++ [47] ++ nm by simp] at hc
    rw [hpre] at hc
    exact Bool.noConfusion hc
  simp [hP, hdot]

/-- Calm unfolding: a regular file entry. -/
theorem calmEntries_file (ign now2 : Int) (m0 : Manifest) (nm : List Nat) (s n : Int)
    (ch : List Nat) (rest : List (List Nat × FSNode)) (path : List Nat)
    (hpre : dotSha1s.isPrefixOf (path ++ [47] ++ nm) = false) :
    calmEntries ign now2 m0 ((nm, .file s n ch) :: rest) path =
      (((ign != 0 && decide (now2 - s > ign)) ||
          storedMatch m0 (path ++ [47] ++ nm) (s, n)) &&
        calmEntries ign now2 m0 rest path) := by
  rw [calmEntries.eq_def]
  have hP : ¬ dotSha1s <+: path ++ 47 :: nm := by
    rw [← List.isPrefixOf_iff_prefix]
    intro hc
    rw [show path ++ 47 :: nm = path ++ [47] ++ nm by simp] at hc
    rw [hpre] at hc
    exact Bool.noConfusion hc
  simp [hP]

/-- Calm unfolding: a link to a regular file. -/
theorem calmEntries_linkFile (ign now2 : Int) (m0 : Manifest) (nm : List Nat) (s n : Int)
    (ch : List Nat) (rest : List (List Nat × FSNode)) (path : List Nat)
    (hpre : dotSha1s.isPrefixOf (path ++ [47] ++ nm) = false) :
    calmEntries ign now2 m0 ((nm, .linkFile s n ch) :: rest) path =
      (((ign != 0 && decide (now2 - s > ign)) ||
          storedMatch m0 (path ++ [47] ++ nm) (s, n)) &&
        calmEntries ign now2 m0 rest path) := by
  rw [calmEntries.eq_def]
  have hP : ¬ dotSha1s <+: path ++ 47 :: nm := by
    rw [← List.isPrefixOf_iff_prefix]
    intro hc
    rw [show path ++ 47 :: nm = path ++ [47] ++ nm by simp] at hc
    rw [hpre] at hc
    exact Bool.noConfusion hc
  simp [hP]

/-- A calm pass (every visited file ignore-skipped or time-matched, no
dangling links) returns `false` and only touches records. -/
theorem walk_calm_false (ign now2 nn : Int) (m0 : Manifest)
    (entries : List (List Nat × FSNode)) (path : List Nat) (m : Manifest) :
    calmEntries ign now2 m0 entries path = true → SameCore m0 m →
      ∃ m', walkEntries ign now2 nn entries path m = .ok (m', false) ∧ SameCore m0 m' := by
  induction entries, path, m using walkEntries.induct ign now2 nn
  all_goals intro hcalm hsc
  case case1 =>
    rename_i path m
    exact ⟨m, walkEntries_nil ign now2 nn path m, hsc⟩
  case case2 =>
    rename_i nm nd rest path m full hpre ih1
    rw [calmEntries_skip ign now2 m0 nm nd rest path hpre] at hcalm
    rw [walkEntries_skip ign now2 nn nm nd rest path m hpre]
    exact ih1 hcalm hsc
  case case3 =>
    rename_i nm rest path m full hpre
    have hpre' : dotSha1s.isPrefixOf (path ++ [47] ++ nm) = false := by
      rw [← Bool.not_eq_true]
      exact hpre
    rw [calmEntries_dangling ign now2 m0 nm rest path hpre'] at hcalm
    exact Bool.noConfusion hcalm
  case case4 =>
    rename_i nm rest path m full hpre ih1
    rw [calmEntries_linkSpecial] at hcalm
    rw [walkEntries_linkSpecial]
    exact ih1 hcalm hsc
  case case5 =>
    rename_i nm rest path m full hpre ih1
    rw [calmEntries_special] at hcalm
    rw [walkEntries_special]
    exact ih1 hcalm hsc
  case case6 =>
    rename_i nm rest path m full hpre es hdot ih1
    rw [calmEntries_dir_dot ign now2 m0 nm es rest path hdot] at hcalm
    rw [walkEntries_dir_dot ign now2 nn nm es rest path m hdot]
    exact ih1 hcalm hsc
  case case7 =>
    rename_i nm rest path m full hpre es hdot e xw ih1
    have hpre' : dotSha1s.isPrefixOf (path ++ [47] ++ nm) = false := by
      rw [← Bool.not_eq_true]
      exact hpre
    rw [calmEntries_dir ign now2 m0 nm es rest path hpre' hdot, Bool.and_eq_true] at hcalm
    obtain ⟨a, hww, _⟩ := ih1 hcalm.1 hsc
    rw [xw] at hww
    exact Except.noConfusion hww
  case case8 =>
    rename_i nm rest path m full hpre es hdot m2 r2 x1 e xw ih2 ih1
    have hpre' : dotSha1s.isPrefixOf (path ++ [47] ++ nm) = false := by
      rw [← Bool.not_eq_true]
      exact hpre
    rw [calmEntries_dir ign now2 m0 nm es rest path hpre' hdot, Bool.and_eq_true] at hcalm
    obtain ⟨a, hww, hsca⟩ := ih2 hcalm.1 hsc
    have h1 := x1.symm.trans hww
    injection h1 with h1'
    injection h1' with hma hra
    obtain ⟨b, hwr, _⟩ := ih1 hcalm.2 (hma.symm ▸ hsca)
    rw [xw] at hwr
    exact Except.noConfusion hwr
  case case9 =>
    rename_i nm rest path m full hpre es hdot m21 r21 x1 m2 r2 xw ih2 ih1
    have hpre' : dotSha1s.isPrefixOf (path ++ [47] ++ nm) = false := by
      rw [← Bool.not_eq_true]
      exact hpre
    rw [calmEntries_dir ign now2 m0 nm es rest path hpre' hdot, Bool.and_eq_true] at hcalm
    obtain ⟨a, hww, hsca⟩ := ih2 hcalm.1 hsc
    have h1 := x1.symm.trans hww
    injection h1 with h1'
    injection h1' with hma hra
    obtain ⟨b, hwr, hscb⟩ := ih1 hcalm.2 (hma.symm ▸ hsca)
    have h2 := xw.symm.trans hwr
    injection h2 with h2'
    injection h2' with hmb hrb
    refine ⟨m2, ?_, hmb.symm ▸ hscb⟩
    rw [walkEntries_dir ign now2 nn nm es rest path m hpre' hdot]
    have x1' : walkEntries ign now2 nn es (path ++ [47] ++ nm) m = .ok (m21, r21) := x1
    have xw' : walkEntries ign now2 nn rest path m21 = .ok (m2, r2) := xw
    simp only [x1', xw']
    rw [hra, hrb]
    rfl
  case case10 =>
    rename_i nm rest path m full hpre es hdot ih1
    rw [calmEntries_linkDir_dot ign now2 m0 nm es rest path hdot] at hcalm
    rw [walkEntries_linkDir_dot ign now2 nn nm es rest path m hdot]
    exact ih1 hcalm hsc
  case case11 =>
    rename_i nm rest path m full hpre es hdot e xw ih1
    have hpre' : dotSha1s.isPrefixOf (path ++ [47] ++ nm) = false := by
      rw [← Bool.not_eq_true]
      exact hpre
    rw [calmEntries_linkDir ign now2 m0 nm es rest path hpre' hdot, Bool.and_eq_true] at hcalm
    obtain ⟨a, hww, _⟩ := ih1 hcalm.1 hsc
    rw [xw] at hww
    exact Except.noConfusion hww
  case case12 =>
    rename_i nm rest path m full hpre es hdot m2 r2 x1 e xw ih2 ih1
    have hpre' : dotSha1s.isPrefixOf (path ++ [47] ++ nm) = false := by
      rw [← Bool.not_eq_true]
      exact hpre
    rw [calmEntries_linkDir ign now2 m0 nm es rest path hpre' hdot, Bool.and_eq_true] at hcalm
    obtain ⟨a, hww, hsca⟩ := ih2 hcalm.1 hsc
    have h1 := x1.symm.trans hww
    injection h1 with h1'
    injection h1' with hma hra
    obtain ⟨b, hwr, _⟩ := ih1 hcalm.2 (hma.symm ▸ hsca)
    rw [xw] at hwr
    exact Except.noConfusion hwr
  case case13 =>
    rename_i nm rest path m full hpre es hdot m21 r21 x1 m2 r2 xw ih2 ih1
    have hpre' : dotSha1s.isPrefixOf (path ++ [47] ++ nm) = false := by
      rw [← Bool.not_eq_true]
      exact hpre
    rw [calmEntries_linkDir ign now2 m0 nm es rest path hpre' hdot, Bool.and_eq_true] at hcalm
    obtain ⟨a, hww, hsca⟩ := ih2 hcalm.1 hsc
    have h1 := x1.symm.trans hww
    injection h1 with h1'
    injection h1' with hma hra
    obtain ⟨b, hwr, hscb⟩ := ih1 hcalm.2 (hma.symm ▸ hsca)
    have h2 := xw.symm.trans hwr
    injection h2 with h2'
    injection h2' with hmb hrb
    refine ⟨m2, ?_, hmb.symm ▸ hscb⟩
    rw [walkEntries_linkDir ign now2 nn nm es rest path m hpre' hdot]
    have x1' : walkEntries ign now2 nn es (path ++ [47] ++ nm) m = .ok (m21, r21) := x1
    have xw' : walkEntries ign now2 nn rest path m21 = .ok (m2, r2) := xw
    simp only [x1', xw']
    rw [hra, hrb]
    rfl
  case case14 =>
    rename_i nm rest path m full hpre s n ch m1 r1 x1 e xw ih1
    have hpre' : dotSha1s.isPrefixOf (path ++ [47] ++ nm) = false := by
      rw [← Bool.not_eq_true]
      exact hpre
    rw [calmEntries_file ign now2 m0 nm s n ch rest path hpre', Bool.and_eq_true] at hcalm
    have hcond : ((ign != 0 && decide (now2 - s > ign)) ||
        storedMatch m (path ++ [47] ++ nm) (s, n)) = true := by
      rw [← storedMatch_congr hsc]
      exact hcalm.1
    obtain ⟨mc, hupd, hscmc⟩ := update_calm nn ch hcond
    have x1' : update_sha1 ign now2 nn (s, n) ch m (path ++ [47] ++ nm) = (m1, r1) := x1
    have h1 := x1'.symm.trans hupd
    injection h1 with hm1 hr1
    obtain ⟨b, hwr, _⟩ := ih1 hcalm.2 (hm1.symm ▸ sameCore_trans hsc hscmc)
    rw [xw] at hwr
    exact Except.noConfusion hwr
  case case15 =>
    rename_i nm rest path m full hpre s n ch m1 r1 x1 m2 r2 xw ih1
    have hpre' : dotSha1s.isPrefixOf (path ++ [47] ++ nm) = false := by
      rw [← Bool.not_eq_true]
      exact hpre
    rw [calmEntries_file ign now2 m0 nm s n ch rest path hpre', Bool.and_eq_true] at hcalm
    have hcond : ((ign != 0 && decide (now2 - s > ign)) ||
        storedMatch m (path ++ [47] ++ nm) (s, n)) = true := by
      rw [← storedMatch_congr hsc]
      exact hcalm.1
    obtain ⟨mc, hupd, hscmc⟩ := update_calm nn ch hcond
    have x1' : update_sha1 ign now2 nn (s, n) ch m (path ++ [47] ++ nm) = (m1, r1) := x1
    have h1 := x1'.symm.trans hupd
    injection h1 with hm1 hr1
    obtain ⟨b, hwr, hscb⟩ := ih1 hcalm.2 (hm1.symm ▸ sameCore_trans hsc hscmc)
    have h2 := xw.symm.trans hwr
    injection h2 with h2'
    injection h2' with hmb hrb
    refine ⟨m2, ?_, hmb.symm ▸ hscb⟩
    rw [walkEntries_file ign now2 nn nm s n ch rest path m hpre']
    simp only [x1', xw]
    rw [hrb, hr1]
    rfl
  case case16 =>
    rename_i nm rest path m full hpre s n ch m1 r1 x1 e xw ih1
    have hpre' : dotSha1s.isPrefixOf (path ++ [47] ++ nm) = false := by
      rw [← Bool.not_eq_true]
      exact hpre
    rw [calmEntries_linkFile ign now2 m0 nm s n ch rest path hpre', Bool.and_eq_true] at hcalm
    have hcond : ((ign != 0 && decide (now2 - s > ign)) ||
        storedMatch m (path ++ [47] ++ nm) (s, n)) = true := by
      rw [← storedMatch_congr hsc]
      exact hcalm.1
    obtain ⟨mc, hupd, hscmc⟩ := update_calm nn ch hcond
    have x1' : update_sha1 ign now2 nn (s, n) ch m (path ++ [47] ++ nm) = (m1, r1) := x1
    have h1 := x1'.symm.trans hupd
    injection h1 with hm1 hr1
    obtain ⟨b, hwr, _⟩ := ih1 hcalm.2 (hm1.symm ▸ sameCore_trans hsc hscmc)
    rw [xw] at hwr
    exact Except.noConfusion hwr
  case case17 =>
    rename_i nm rest path m full hpre s n ch m1 r1 x1 m2 r2 xw ih1
    have hpre' : dotSha1s.isPrefixOf (path ++ [47] ++ nm) = false := by
      rw [← Bool.not_eq_true]
      exact hpre
    rw [calmEntries_linkFile ign now2 m0 nm s n ch rest path hpre', Bool.and_eq_true] at hcalm
    have hcond : ((ign != 0 && decide (now2 - s > ign)) ||
        storedMatch m (path ++ [47] ++ nm) (s, n)) = true := by
      rw [← storedMatch_congr hsc]
      exact hcalm.1
    obtain ⟨mc, hupd, hscmc⟩ := update_calm nn ch hcond
    have x1' : update_sha1 ign now2 nn (s, n) ch m (path ++ [47] ++ nm) = (m1, r1) := x1
    have h1 := x1'.symm.trans hupd
    injection h1 with hm1 hr1
    obtain ⟨b, hwr, hscb⟩ := ih1 hcalm.2 (hm1.symm ▸ sameCore_trans hsc hscmc)
    have h2 := xw.symm.trans hwr
    injection h2 with h2'
    injection h2' with hmb hrb
    refine ⟨m2, ?_, hmb.symm ▸ hscb⟩
    rw [walkEntries_linkFile ign now2 nn nm s n ch rest path m hpre']
    simp only [x1', xw]
    rw [hrb, hr1]
    rfl

/-- C2 counterexample: one regular file whose age at visit time is under
3 seconds (reference clock 101, mtime 100) and which has no stored
record.  The visit skips hashing and leaves the manifest unchanged (empty),
yet `update_sha1` falls through to `return true`, so the scan reports an
update and `main` rewrites the manifest file — the claim says the scan
returns true only when a record was added or changed. -/
theorem scan_fresh_returns_true :
    update_sha1s 0 100 101 [([97], .file 100 0 [104])] [] = .ok ([], true) := by
  rw [update_sha1s, walkEntries_file 0 100 101 [97] 100 0 [104] [] [46] [] (by decide)]
  have hu : update_sha1 0 100 101 ((100 : Int), (0 : Int)) [104] [] ([46] ++ [47] ++ [97]) =
      ([], true) := by decide
  simp only [hu, walkEntries_nil]
  rfl

/-- C2 amended: the scan returns `false` only if no record was added or
changed (a `false` result implies the manifest cores are unchanged); and
a pass in which every visited regular file is either skipped by the
ignore threshold or matches its stored modification time (with no
dangling links) returns `false`, leaves every core field unchanged, and
— with no prune options active — `main` then does not rewrite the
manifest.  The converse of the claim fails: a too-fresh skip returns
`true` without any record change (see the counterexample). -/
theorem scan_calm_false (ign now2 nn : Int) (root : List (List Nat × FSNode)) (m : Manifest) :
    (∀ m', update_sha1s ign now2 nn root m = .ok (m', false) → SameCore m m') ∧
      (calmEntries ign now2 m root [46] = true →
        ∃ m', update_sha1s ign now2 nn root m = .ok (m', false) ∧ SameCore m m' ∧
          need_to_write false false 0 now2 m' = false) := by
  constructor
  · intro m' hw
    exact walk_false_sameCore ign now2 nn root [46] m m' hw
  · intro hcalm
    obtain ⟨m', hw, hsc⟩ := walk_calm_false ign now2 nn m root [46] m hcalm (sameCore_refl m)
    refine ⟨m', hw, hsc, ?_⟩
    rw [need_to_write, prune]
    simp
/-- Witness for the amended C2: a one-file tree whose stored record
matches the file's modification time exactly. -/
theorem scan_calm_false_holds :
    ∃ m', update_sha1s 0 0 10 [([97], .file 100 0 [104])]
        [([46, 47, 97], ⟨[104], 100, 0, false⟩)] = .ok (m', false) ∧
      SameCore [([46, 47, 97], ⟨[104], 100, 0, false⟩)] m' ∧
      need_to_write false false 0 0 m' = false :=
  (scan_calm_false 0 0 10 [([97], .file 100 0 [104])]
      [([46, 47, 97], ⟨[104], 100, 0, false⟩)]).2
    (by
      rw [calmEntries_file 0 0 [([46, 47, 97], ⟨[104], 100, 0, false⟩)] [97] 100 0 [104] []
          [46] (by decide), calmEntries_nil]
      decide)

/-! ### SHA-1 streaming interface (`sha1.c`)

`sha1_compress` is external (only declared in `sha1.h`), so it is taken
as an abstract parameter `c : hash → block → hash`; every result below
holds for an arbitrary compression function.  Bytes and 32-bit words are
`Nat`s; the 64-byte block buffer is a length-64 list; `total` is a
`uint64_t`, kept reduced mod `2^64`. -/

structure sha1_state where
  index : Nat
  hash : List Nat
  total : Nat
  block : List Nat
deriving DecidableEq

def initHash : List Nat := [0x67452301, 0xEFCDAB89, 0x98BADCFE, 0x10325476, 0xC3D2E1F0]

/-- `sha1_start` resets index, hash and total; the block buffer is left
as it was (the C struct's array is simply not written). -/
def sha1_start (s : sha1_state) : sha1_state :=
  { index := 0, hash := initHash, total := 0, block := s.block }

/-- `memcpy(b + i, p, p.length)` on a byte buffer. -/
def writeBytes (b : List Nat) (i : Nat) (p : List Nat) : List Nat :=
  b.take i ++ p ++ b.drop (i + p.length)

/-- The successive 64-byte blocks compressed by the `for` loop of
`sha1_process` (positions `0, 64, 128, …` while at least 64 bytes
remain). -/
def fullChunks (p : List Nat) : List (List Nat) :=
  if _h : 64 ≤ p.length then p.take 64 :: fullChunks (p.drop 64) else []
termination_by p.length
decreasing_by simp [List.length_drop]; omega

/-- The bytes left over after the full 64-byte blocks of `p`. -/
def tail64 (p : List Nat) : List Nat := p.drop (p.length - p.length % 64)

/-- Second half of `sha1_process` (from `if (len == 0) return;` on):
compress each remaining full 64-byte block of `p`, copy the remainder
into the block buffer, and add the consumed length to `total`. -/
def sha1_tail (c : List Nat → List Nat → List Nat) (s : sha1_state) (p : List Nat) :
    sha1_state :=
  if p.length = 0 then s
  else
    let rem := p.length % 64
    { index := if rem > 0 then rem else s.index,
      hash := (fullChunks p).foldl c s.hash,
      total := (s.total + p.length) % 2 ^ 64,
      block := if rem > 0 then writeBytes s.block 0 (p.drop (p.length - rem)) else s.block }

/-- `sha1_process`: if a partial block is pending, top it up first
(compressing if it reaches 64 bytes), then stream the rest. -/
def sha1_process (c : List Nat → List Nat → List Nat) (s : sha1_state) (p : List Nat) :
    sha1_state :=
  if s.index ≠ 0 then
    let blkrem := min (64 - s.index) p.length
    let block1 := writeBytes s.block s.index (p.take blkrem)
    let total1 := (s.total + blkrem) % 2 ^ 64
    let s1 : sha1_state :=
      if s.index + blkrem = 64 then
        { index := 0, hash := c s.hash block1, total := total1, block := block1 }
      else
        { index := s.index + blkrem, hash := s.hash, total := total1, block := block1 }
    sha1_tail c s1 (p.drop blkrem)
  else sha1_tail c s p

/-- The eight length bytes `block[56..63]`: the bit count
`total << 3` (mod `2^64`) in big-endian order. -/
def lenBytesBE (total : Nat) : List Nat :=
  let len := total * 8 % 2 ^ 64
  [len >>> 56 % 256, len >>> 48 % 256, len >>> 40 % 256, len >>> 32 % 256,
   len >>> 24 % 256, len >>> 16 % 256, len >>> 8 % 256, len % 256]

/-- `sha1_finish`: append `0x80`, zero-pad, place the bit length in the
last eight bytes (compressing an extra block when fewer than 8 bytes of
room remain), and compress. -/
def sha1_finish (c : List Nat → List Nat → List Nat) (s : sha1_state) : List Nat :=
  let block1 := writeBytes s.block s.index [128]
  let idx1 := s.index + 1
  if 8 ≤ 64 - idx1 then
    c s.hash (writeBytes (writeBytes block1 idx1 (List.replicate (56 - idx1) 0)) 56
      (lenBytesBE s.total))
  else
    c (c s.hash (writeBytes block1 idx1 (List.replicate (64 - idx1) 0)))
      (writeBytes (writeBytes (writeBytes block1 idx1 (List.replicate (64 - idx1) 0)) 0
        (List.replicate 56 0)) 56 (lenBytesBE s.total))

/-- What `sha1_finish` computes, phrased on the determining data: the
pending bytes `data = block.take index`, the hash, and the total. -/
def finishNormal (c : List Nat → List Nat → List Nat) (idx : Nat) (hash : List Nat)
    (total : Nat) (data : List Nat) : List Nat :=
  if 8 ≤ 64 - (idx + 1) then
    c hash (data ++ [128] ++ List.replicate (56 - (idx + 1)) 0 ++ lenBytesBE total)
  else
    c (c hash (data ++ [128] ++ List.replicate (64 - (idx + 1)) 0))
      (List.replicate 56 0 ++ lenBytesBE total)

/-- Abstraction relation: state `s` represents having streamed exactly
the bytes `msg` since `sha1_start`. -/
def ReprState (c : List Nat → List Nat → List Nat) (msg : List Nat) (s : sha1_state) : Prop :=
  s.index = msg.length % 64 ∧
  s.hash = (fullChunks msg).foldl c initHash ∧
  s.total = msg.length % 2 ^ 64 ∧
  s.block.length = 64 ∧
  s.block.take s.index = tail64 msg

theorem fullChunks_small (p : List Nat) (h : p.length < 64) : fullChunks p = [] := by
  rw [fullChunks]
  rw [dif_neg (by omega)]

theorem fullChunks_big (p : List Nat) (h : 64 ≤ p.length) :
    fullChunks p = p.take 64 :: fullChunks (p.drop 64) := by
  rw [fullChunks]
  rw [dif_pos h]

theorem fullChunks_append (msg : List Nat) :
    ∀ p : List Nat, msg.length % 64 = 0 →
      fullChunks (msg ++ p) = fullChunks msg ++ fullChunks p := by
  induction msg using fullChunks.induct with
  | case1 msg h64 ih =>
    intro p h
    rw [fullChunks_big msg h64,
      fullChunks_big (msg ++ p) (by simp only [List.length_append]; omega)]
    rw [List.take_append_of_le_length (by omega), List.drop_append_of_le_length (by omega)]
    rw [ih p (by simp only [List.length_drop]; omega)]
    simp
  | case2 msg h64 =>
    intro p h
    have hm : msg = [] := List.eq_nil_of_length_eq_zero (by omega)
    subst hm
    simp [fullChunks_small [] (by simp)]

theorem tail64_length (p : List Nat) : (tail64 p).length = p.length % 64 := by
  simp only [tail64, List.length_drop]
  omega

theorem sha1_tail_repr (c : List Nat → List Nat → List Nat) (msg p : List Nat)
    (s : sha1_state) (hrep : ReprState c msg s) (hal : msg.length % 64 = 0) :
    ReprState c (msg ++ p) (sha1_tail c s p) := by
  obtain ⟨hidx, hhash, htot, hlen, htake⟩ := hrep
  rw [sha1_tail]
  by_cases hp : p.length = 0
  · rw [if_pos hp]
    have hnil : p = [] := List.eq_nil_of_length_eq_zero hp
    subst hnil
    exact ⟨by simpa using hidx, by simpa using hhash, by simpa using htot, hlen,
      by simpa using htake⟩
  · rw [if_neg hp]
    simp only [ReprState]
    refine ⟨?_, ?_, ?_, ?_, ?_⟩
    · by_cases hrem : p.length % 64 > 0
      · rw [if_pos hrem]
        simp only [List.length_append]
        omega
      · rw [if_neg hrem]
        rw [hidx]
        simp only [List.length_append]
        omega
    · rw [fullChunks_append msg p hal, List.foldl_append, hhash]
    · simp only [List.length_append]
      rw [htot, Nat.mod_add_mod]
    · by_cases hrem : p.length % 64 > 0
      · rw [if_pos hrem]
        simp only [writeBytes, List.take_zero, List.nil_append, Nat.zero_add,
          List.length_append, List.length_take, List.length_drop]
        omega
      · rw [if_neg hrem]
        exact hlen
    · by_cases hrem : p.length % 64 > 0
      · rw [if_pos hrem, if_pos hrem]
        simp only [writeBytes, List.take_zero, List.nil_append, Nat.zero_add]
        have h1 : (p.drop (p.length - p.length % 64)).length = p.length % 64 := by
          simp only [List.length_drop]
          omega
        rw [List.take_left' h1]
        simp only [tail64, List.length_append]
        rw [show msg.length + p.length - (msg.length + p.length) % 64 =
          msg.length + (p.length - p.length % 64) by omega]
        rw [← List.drop_drop, List.drop_left]
      · rw [if_neg hrem, if_neg hrem]
        rw [hidx, hal]
        simp only [List.take_zero, tail64, List.length_append]
        rw [show msg.length + p.length - (msg.length + p.length) % 64 =
          msg.length + p.length by omega]
        rw [← List.length_append, List.drop_length]

theorem sha1_process_repr (c : List Nat → List Nat → List Nat) (msg p : List Nat)
    (s : sha1_state) (hrep : ReprState c msg s) :
    ReprState c (msg ++ p) (sha1_process c s p) := by
  obtain ⟨hidx, hhash, htot, hlen, htake⟩ := hrep
  by_cases h0 : s.index ≠ 0
  · have hidxlt : s.index < 64 := by rw [hidx]; omega
    have hsplit : msg.take (msg.length - s.index) ++ tail64 msg = msg := by
      rw [tail64, hidx]
      exact List.take_append_drop _ _
    have halA : (msg.take (msg.length - s.index)).length % 64 = 0 := by
      rw [List.length_take]
      omega
    have hfm : fullChunks msg = fullChunks (msg.take (msg.length - s.index)) := by
      conv_lhs => rw [← hsplit]
      rw [fullChunks_append _ _ halA,
        fullChunks_small (tail64 msg) (by rw [tail64_length]; omega)]
      simp
    by_cases hble : 64 - s.index ≤ p.length
    · have hmin : min (64 - s.index) p.length = 64 - s.index := by omega
      have htk : (p.take (64 - s.index)).length = 64 - s.index := by
        rw [List.length_take]
        omega
      have hrw : sha1_process c s p = sha1_tail c
          ⟨0, c s.hash (writeBytes s.block s.index (p.take (64 - s.index))),
            (s.total + (64 - s.index)) % 2 ^ 64,
            writeBytes s.block s.index (p.take (64 - s.index))⟩
          (p.drop (64 - s.index)) := by
        rw [sha1_process, if_pos h0]
        simp only [hmin]
        rw [if_pos (by omega)]
      have hblock : writeBytes s.block s.index (p.take (64 - s.index)) =
          tail64 msg ++ p.take (64 - s.index) := by
        simp only [writeBytes, htake]
        rw [htk, show s.index + (64 - s.index) = 64 by omega,
          List.drop_eq_nil_of_le (by omega)]
        simp
      have h64 : (tail64 msg ++ p.take (64 - s.index)).length = 64 := by
        rw [List.length_append, tail64_length, htk]
        omega
      have hfT : fullChunks (tail64 msg ++ p.take (64 - s.index)) =
          [tail64 msg ++ p.take (64 - s.index)] := by
        rw [fullChunks_big _ (by rw [h64]),
          List.take_of_length_le (by rw [h64]),
          List.drop_eq_nil_of_le (by rw [h64]), fullChunks_small [] (by simp)]
      have hch : fullChunks (msg ++ p.take (64 - s.index)) =
          fullChunks msg ++ [tail64 msg ++ p.take (64 - s.index)] := by
        conv_lhs => rw [← hsplit, List.append_assoc, fullChunks_append _ _ halA, hfT]
        rw [hfm]
      have hstep : ReprState c (msg ++ p.take (64 - s.index))
          ⟨0, c s.hash (writeBytes s.block s.index (p.take (64 - s.index))),
            (s.total + (64 - s.index)) % 2 ^ 64,
            writeBytes s.block s.index (p.take (64 - s.index))⟩ := by
        refine ⟨?_, ?_, ?_, ?_, ?_⟩
        · simp only [List.length_append, htk]
          omega
        · simp only
          rw [hch, List.foldl_append, hblock, ← hhash]
          simp
        · simp only [List.length_append, htk]
          rw [htot, Nat.mod_add_mod]
        · simp only [hblock]
          exact h64
        · simp only [List.take_zero, tail64]
          symm
          apply List.drop_eq_nil_of_le
          simp only [List.length_append, htk]
          omega
      have hfin := sha1_tail_repr c (msg ++ p.take (64 - s.index)) (p.drop (64 - s.index))
        _ hstep (by simp only [List.length_append, htk]; omega)
      rw [hrw]
      simpa [List.append_assoc] using hfin
    · have hmin : min (64 - s.index) p.length = p.length := by omega
      have hrw : sha1_process c s p =
          ⟨s.index + p.length, s.hash, (s.total + p.length) % 2 ^ 64,
            writeBytes s.block s.index p⟩ := by
        rw [sha1_process, if_pos h0]
        simp only [hmin, List.take_length]
        rw [if_neg (by omega), List.drop_length]
        simp [sha1_tail]
      rw [hrw]
      refine ⟨?_, ?_, ?_, ?_, ?_⟩
      · simp only [List.length_append]
        omega
      · simp only
        have hsm : fullChunks (msg ++ p) = fullChunks (msg.take (msg.length - s.index)) := by
          conv_lhs => rw [← hsplit, List.append_assoc, fullChunks_append _ _ halA,
            fullChunks_small (tail64 msg ++ p)
              (by rw [List.length_append, tail64_length]; omega)]
          simp
        rw [hsm, ← hfm, hhash]
      · simp only [List.length_append]
        rw [htot, Nat.mod_add_mod]
      · simp only [writeBytes, List.length_append, List.length_take, List.length_drop]
        omega
      · simp only [writeBytes, htake]
        rw [List.take_left' (by rw [List.length_append, tail64_length]; omega)]
        have hta : tail64 (msg ++ p) = msg.drop (msg.length - s.index) ++ p := by
          rw [tail64, List.length_append,
            show msg.length + p.length - (msg.length + p.length) % 64 =
              msg.length - s.index by omega,
            List.drop_append_of_le_length (by omega)]
        rw [hta, tail64, hidx]
  · have hz : s.index = 0 := by omega
    have hrw : sha1_process c s p = sha1_tail c s p := by
      rw [sha1_process, if_neg h0]
    rw [hrw]
    exact sha1_tail_repr c msg p s ⟨hidx, hhash, htot, hlen, htake⟩ (by omega)

theorem sha1_foldl_repr (c : List Nat → List Nat → List Nat) (chunks : List (List Nat))
    (msg : List Nat) (s : sha1_state) (hrep : ReprState c msg s) :
    ReprState c (msg ++ chunks.flatten) (chunks.foldl (sha1_process c) s) := by
  induction chunks generalizing msg s with
  | nil => simpa using hrep
  | cons x xs ih =>
    have h := ih (msg ++ x) (sha1_process c s x) (sha1_process_repr c msg x s hrep)
    simpa [List.append_assoc] using h

theorem sha1_start_repr (c : List Nat → List Nat → List Nat) (s0 : sha1_state)
    (h : s0.block.length = 64) : ReprState c [] (sha1_start s0) := by
  refine ⟨rfl, ?_, rfl, h, rfl⟩
  rw [fullChunks_small [] (by simp)]
  rfl

theorem sha1_finish_norm (c : List Nat → List Nat → List Nat) (s : sha1_state)
    (h64 : s.block.length = 64) (hidx : s.index < 64) :
    sha1_finish c s = finishNormal c s.index s.hash s.total (s.block.take s.index) := by
  have ht : (s.block.take s.index).length = s.index := by
    rw [List.length_take]
    omega
  have hb1 : writeBytes s.block s.index [128] =
      (s.block.take s.index ++ [128]) ++ s.block.drop (s.index + 1) := by
    simp [writeBytes]
  have hb1len : ((s.block.take s.index ++ [128]) ++ s.block.drop (s.index + 1)).length = 64 := by
    simp only [List.length_append, List.length_drop, ht, List.length_cons, List.length_nil]
    omega
  have htk1 : (s.block.take s.index ++ [128]).length = s.index + 1 := by
    simp [ht]
  rw [sha1_finish, finishNormal, hb1]
  by_cases hbr : 8 ≤ 64 - (s.index + 1)
  · rw [if_pos hbr, if_pos hbr]
    congr 1
    have hA : writeBytes ((s.block.take s.index ++ [128]) ++ s.block.drop (s.index + 1))
        (s.index + 1) (List.replicate (56 - (s.index + 1)) 0) =
        ((s.block.take s.index ++ [128]) ++ List.replicate (56 - (s.index + 1)) 0) ++
          ((s.block.take s.index ++ [128]) ++ s.block.drop (s.index + 1)).drop 56 := by
      rw [writeBytes, List.take_left' htk1,
        show s.index + 1 + (List.replicate (56 - (s.index + 1)) (0 : Nat)).length = 56 by
          rw [List.length_replicate]; omega]
    have hfront : ((s.block.take s.index ++ [128]) ++
        List.replicate (56 - (s.index + 1)) 0).length = 56 := by
      rw [List.length_append, htk1, List.length_replicate]
      omega
    have hAlen : (((s.block.take s.index ++ [128]) ++ List.replicate (56 - (s.index + 1)) 0) ++
        ((s.block.take s.index ++ [128]) ++ s.block.drop (s.index + 1)).drop 56).length = 64 := by
      rw [List.length_append, hfront, List.length_drop, hb1len]
    rw [hA, writeBytes, List.take_left' hfront,
      show (56 : Nat) + (lenBytesBE s.total).length = 64 from rfl,
      List.drop_eq_nil_of_le (le_of_eq hAlen)]
    simp
  · rw [if_neg hbr, if_neg hbr]
    have hW1 : writeBytes ((s.block.take s.index ++ [128]) ++ s.block.drop (s.index + 1))
        (s.index + 1) (List.replicate (64 - (s.index + 1)) 0) =
        (s.block.take s.index ++ [128]) ++ List.replicate (64 - (s.index + 1)) 0 := by
      rw [writeBytes, List.take_left' htk1,
        show s.index + 1 + (List.replicate (64 - (s.index + 1)) (0 : Nat)).length = 64 by
          rw [List.length_replicate]; omega,
        List.drop_eq_nil_of_le (le_of_eq hb1len)]
      simp
    have hW1len : ((s.block.take s.index ++ [128]) ++
        List.replicate (64 - (s.index + 1)) 0).length = 64 := by
      rw [List.length_append, htk1, List.length_replicate]
      omega
    have hI : writeBytes ((s.block.take s.index ++ [128]) ++
        List.replicate (64 - (s.index + 1)) 0) 0 (List.replicate 56 0) =
        List.replicate 56 0 ++ ((s.block.take s.index ++ [128]) ++
          List.replicate (64 - (s.index + 1)) 0).drop 56 := by
      simp [writeBytes]
    have hIlen : (List.replicate (56 : Nat) (0 : Nat) ++ ((s.block.take s.index ++ [128]) ++
        List.replicate (64 - (s.index + 1)) 0).drop 56).length = 64 := by
      rw [List.length_append, List.length_replicate, List.length_drop, hW1len]
    have hO : writeBytes (List.replicate 56 0 ++ ((s.block.take s.index ++ [128]) ++
        List.replicate (64 - (s.index + 1)) 0).drop 56) 56 (lenBytesBE s.total) =
        List.replicate 56 0 ++ lenBytesBE s.total := by
      rw [writeBytes, List.take_left' (by rw [List.length_replicate]),
        show (56 : Nat) + (lenBytesBE s.total).length = 64 from rfl,
        List.drop_eq_nil_of_le (le_of_eq hIlen)]
      simp
    rw [hW1, hI, hO]

/-- C4: for every byte sequence, every splitting of it into a finite
list of chunks, every compression function `c`, and every starting
struct whose block buffer has its declared 64 bytes, running
`sha1_start`, then `sha1_process` on each chunk in order, then
`sha1_finish` yields the same digest as running `sha1_start`, a single
`sha1_process` on the whole sequence (the concatenation of the chunks),
then `sha1_finish`. -/
theorem sha1_chunked_eq_whole (c : List Nat → List Nat → List Nat) (s0 : sha1_state)
    (chunks : List (List Nat)) (h : s0.block.length = 64) :
    sha1_finish c (chunks.foldl (sha1_process c) (sha1_start s0)) =
      sha1_finish c (sha1_process c (sha1_start s0) chunks.flatten) := by
  have h1 : ReprState c ([] ++ chunks.flatten) (chunks.foldl (sha1_process c) (sha1_start s0)) :=
    sha1_foldl_repr c chunks [] (sha1_start s0) (sha1_start_repr c s0 h)
  have h2 : ReprState c ([] ++ chunks.flatten) (sha1_process c (sha1_start s0) chunks.flatten) :=
    sha1_process_repr c [] chunks.flatten (sha1_start s0) (sha1_start_repr c s0 h)
  obtain ⟨i1, ha1, t1, l1, b1⟩ := h1
  obtain ⟨i2, ha2, t2, l2, b2⟩ := h2
  rw [sha1_finish_norm c _ l1 (by rw [i1]; omega),
    sha1_finish_norm c _ l2 (by rw [i2]; omega)]
  rw [b1, b2, i1, i2, ha1, ha2, t1, t2]
/-- Witness for C4: two concrete chunks, a fresh state with a zeroed
64-byte block, and a concrete compression function. -/
theorem sha1_chunked_eq_whole_holds :
    (sha1_state.mk 0 [] 0 (List.replicate 64 0)).block.length = 64 ∧
    sha1_finish (fun h _ => h) ([[1, 2], [3]].foldl (sha1_process (fun h _ => h))
        (sha1_start (sha1_state.mk 0 [] 0 (List.replicate 64 0)))) =
      sha1_finish (fun h _ => h) (sha1_process (fun h _ => h)
        (sha1_start (sha1_state.mk 0 [] 0 (List.replicate 64 0))) [[1, 2], [3]].flatten) :=
  ⟨by decide, sha1_chunked_eq_whole (fun h _ => h)
    (sha1_state.mk 0 [] 0 (List.replicate 64 0)) [[1, 2], [3]] (by decide)⟩

end Hashsync